import Mathlib

/-!
Shallow embedding of the block-parallel recursive filtering notebook
(src/python/all_functions.ipynb).  Scalars are modelled as rationals, the
exact-arithmetic stand-in for IEEE doubles; numpy 2-D arrays are Mathlib
matrices over Fin; the in-place loops of the source are left folds over
index ranges threading the mutated array as explicit functional state.
Python negative indexing (v[-1] reads the last entry) is modelled
explicitly, since the carry grids rely on it for their boundary slots.
-/

namespace GpuFilter

/-- Python indexing into a vector of length rr: nonnegative indices read
directly, negative indices read from the end (v[-1] is the last entry).
Out-of-range reads default to 0; they raise in Python and are unreached
at the embedded call sites. -/
def pyv {rr : ℕ} (v : Fin rr → ℚ) : ℤ → ℚ := fun i =>
  if h : 0 ≤ i ∧ i < (rr : ℤ) then v ⟨i.toNat, by omega⟩
  else if h2 : -(rr : ℤ) ≤ i ∧ i < 0 then v ⟨(i + rr).toNat, by omega⟩ else 0

/-- Iteration j of the in-place loop of fwd (source cell: def fwd): scale
entry j of the row by weig[0], then for k = 1..r subtract weig[k] times
the prologue entry prol[j-k] when j-k is negative, else times the already
updated row entry j-k. -/
def fwdStep (prol : ℤ → ℚ) (w : ℕ → ℚ) (r : ℕ) (a : ℕ → ℚ) (j : ℕ) : ℕ → ℚ :=
  (List.range r).foldl
    (fun a2 k0 =>
      Function.update a2 j
        (a2 j - w (k0 + 1) *
          (if (j : ℤ) - (k0 + 1) < 0 then prol ((j : ℤ) - (k0 + 1))
           else a2 (j - (k0 + 1)))))
    (Function.update a j (w 0 * a j))

/-- fwd (source): causal recursive filter of a row of length q, run in
place for j = 0..q-1 in increasing order. -/
def fwdRun (prol : ℤ → ℚ) (bloc : ℕ → ℚ) (w : ℕ → ℚ) (r q : ℕ) : ℕ → ℚ :=
  (List.range q).foldl (fwdStep prol w r) bloc

/-- Iteration j of the in-place loop of rev (source cell: def rev): scale
entry j by weig[0], then for k = 1..r subtract weig[k] times the epilogue
entry epil[j+k-q] when j+k falls off the row, else times the already
updated row entry j+k. -/
def revStep (epil : ℤ → ℚ) (w : ℕ → ℚ) (r q : ℕ) (a : ℕ → ℚ) (j : ℕ) : ℕ → ℚ :=
  (List.range r).foldl
    (fun a2 k0 =>
      Function.update a2 j
        (a2 j - w (k0 + 1) *
          (if (q : ℤ) ≤ (j : ℤ) + (k0 + 1) then epil ((j : ℤ) + (k0 + 1) - q)
           else a2 (j + (k0 + 1)))))
    (Function.update a j (w 0 * a j))

/-- rev (source): anticausal recursive filter of a row of length q, run
in place for j = q-1..0 in decreasing order. -/
def revRun (bloc : ℕ → ℚ) (epil : ℤ → ℚ) (w : ℕ → ℚ) (r q : ℕ) : ℕ → ℚ :=
  ((List.range q).reverse).foldl (revStep epil w r q) bloc

/-- View a finite row as a total function on ℕ (entries beyond the row
default to 0 and are unreached by the sweeps). -/
def rowf {q : ℕ} (v : Fin q → ℚ) : ℕ → ℚ := fun t => if h : t < q then v ⟨t, h⟩ else 0

/-- FT (source): forward-transpose filter, applying fwd to every row of
the block with the matching row of prologues. -/
def FT {p rr q : ℕ} (Prol : Matrix (Fin p) (Fin rr) ℚ) (Bloc : Matrix (Fin p) (Fin q) ℚ)
    (w : ℕ → ℚ) (r : ℕ) : Matrix (Fin p) (Fin q) ℚ :=
  Matrix.of fun i j => fwdRun (pyv (Prol i)) (rowf (Bloc i)) w r q j.1

/-- F (source): forward filter down the columns, via FT on transposes. -/
def F {p rr q : ℕ} (Prol : Matrix (Fin rr) (Fin q) ℚ) (Bloc : Matrix (Fin p) (Fin q) ℚ)
    (w : ℕ → ℚ) (r : ℕ) : Matrix (Fin p) (Fin q) ℚ :=
  (FT Prol.transpose Bloc.transpose w r).transpose

/-- RT (source): reverse-transpose filter, applying rev to every row of
the block with the matching row of epilogues. -/
def RT {p rr q : ℕ} (Bloc : Matrix (Fin p) (Fin q) ℚ) (Epil : Matrix (Fin p) (Fin rr) ℚ)
    (w : ℕ → ℚ) (r : ℕ) : Matrix (Fin p) (Fin q) ℚ :=
  Matrix.of fun i j => revRun (rowf (Bloc i)) (pyv (Epil i)) w r q j.1

/-- R (source): reverse filter up the columns, via RT on transposes. -/
def R {p rr q : ℕ} (Bloc : Matrix (Fin p) (Fin q) ℚ) (Epil : Matrix (Fin rr) (Fin q) ℚ)
    (w : ℕ → ℚ) (r : ℕ) : Matrix (Fin p) (Fin q) ℚ :=
  (RT Bloc.transpose Epil.transpose w r).transpose

/-- H (source): head operator, the first r rows of X (X[:r], with r not
exceeding the row count at every call site). -/
def H {p q : ℕ} (X : Matrix (Fin p) (Fin q) ℚ) (r : ℕ) (hr : r ≤ p) :
    Matrix (Fin r) (Fin q) ℚ :=
  X.submatrix (Fin.castLE hr) id

/-- T (source): tail operator, the last r rows of X (X[-r:]). -/
def T {p q : ℕ} (X : Matrix (Fin p) (Fin q) ℚ) (r : ℕ) (hr : r ≤ p) :
    Matrix (Fin r) (Fin q) ℚ :=
  X.submatrix (fun i => ⟨p - r + i.1, by have := i.2; omega⟩) id

/-- HT (source): head-transpose operator, the first r columns of X. -/
def HT {p q : ℕ} (X : Matrix (Fin p) (Fin q) ℚ) (r : ℕ) (hr : r ≤ q) :
    Matrix (Fin p) (Fin r) ℚ :=
  X.submatrix id (Fin.castLE hr)

/-- TT (source): tail-transpose operator, the last r columns of X. -/
def TT {p q : ℕ} (X : Matrix (Fin p) (Fin q) ℚ) (r : ℕ) (hr : r ≤ q) :
    Matrix (Fin p) (Fin r) ℚ :=
  X.submatrix id (fun j => ⟨q - r + j.1, by have := j.2; omega⟩)

/-- flip (source): reverse both rows and columns of a block. -/
def flip {p q : ℕ} (Bloc : Matrix (Fin p) (Fin q) ℚ) : Matrix (Fin p) (Fin q) ℚ :=
  Matrix.of fun i j =>
    Bloc ⟨p - 1 - i.1, by have := i.2; omega⟩ ⟨q - 1 - j.1, by have := j.2; omega⟩

/-- np.flipud: reverse the rows of a matrix (used for the exchange
matrix K in the elementary-matrix builder). -/
def flipud {p q : ℕ} (X : Matrix (Fin p) (Fin q) ℚ) : Matrix (Fin p) (Fin q) ℚ :=
  Matrix.of fun i j => X ⟨p - 1 - i.1, by have := i.2; omega⟩ j

/-- np.tile(X, (r, 1)) of a single row: replicate the row r times. -/
def tileR {q : ℕ} (r : ℕ) (X : Matrix (Fin 1) (Fin q) ℚ) : Matrix (Fin r) (Fin q) ℚ :=
  Matrix.of fun _ j => X 0 j

/-- np.tile(X, (1, r)) of a single column: replicate the column r times. -/
def tileC {p : ℕ} (r : ℕ) (X : Matrix (Fin p) (Fin 1) ℚ) : Matrix (Fin p) (Fin r) ℚ :=
  Matrix.of fun i _ => X i 0

/-- Numeric failure surfaced by the extension-matrix builders when a
required inversion meets a singular matrix. -/
inductive FilterError
  | IllConditionedWeights
deriving DecidableEq

/-- The matrix inverse computed by np.linalg.inv on a nonsingular
matrix, in exact arithmetic: adjugate over determinant. -/
def minv {k : ℕ} (A : Matrix (Fin k) (Fin k) ℚ) : Matrix (Fin k) (Fin k) ℚ :=
  (A.det)⁻¹ • A.adjugate

/-- np.linalg.inv: fails on a singular matrix, otherwise inverts. -/
def npinv {k : ℕ} (A : Matrix (Fin k) (Fin k) ℚ) :
    Except FilterError (Matrix (Fin k) (Fin k) ℚ) :=
  if A.det = 0 then .error .IllConditionedWeights else .ok (minv A)

/-- scipy lu_factor followed by lu_solve: solve A x = v.  scipy raises
no exception on an exactly singular A: lu_factor only emits a
LinAlgWarning and lu_solve then divides by the zero pivot, returning
non-finite garbage.  The call is therefore total; in this
exact-arithmetic embedding the division-by-zero convention makes the
singular-case garbage the zero vector (adjugate over a zero
determinant), while on a nonsingular A the result is the true
solution. -/
def luSolve {k : ℕ} (A : Matrix (Fin k) (Fin k) ℚ) (v : Fin k → ℚ) :
    Fin k → ℚ :=
  (minv A).mulVec v

/-- The tuple returned by build_alg5_matrices, as a structure; the field
order and names follow the source return statement. -/
structure Alg5M (b r : ℕ) where
  Zrb : Matrix (Fin r) (Fin b) ℚ
  Zbr : Matrix (Fin b) (Fin r) ℚ
  Ir : Matrix (Fin r) (Fin r) ℚ
  Ib : Matrix (Fin b) (Fin b) ℚ
  AFP : Matrix (Fin b) (Fin r) ℚ
  AFB : Matrix (Fin b) (Fin b) ℚ
  AbF : Matrix (Fin r) (Fin r) ℚ
  AbR : Matrix (Fin r) (Fin r) ℚ
  HARB_AFP : Matrix (Fin r) (Fin r) ℚ
  AbFT : Matrix (Fin r) (Fin r) ℚ
  AbRT : Matrix (Fin r) (Fin r) ℚ
  HARB_AFPT : Matrix (Fin r) (Fin r) ℚ
  HARB_AFBT : Matrix (Fin b) (Fin r) ℚ
  ARB_AFP : Matrix (Fin b) (Fin r) ℚ
  TAFBT : Matrix (Fin b) (Fin r) ℚ
  ARE : Matrix (Fin b) (Fin r) ℚ
  K : Matrix (Fin r) (Fin r) ℚ
  ArF : Matrix (Fin r) (Fin r) ℚ
  ArR : Matrix (Fin r) (Fin r) ℚ
  AbarF : Matrix (Fin r) (Fin r) ℚ
  AbarR : Matrix (Fin r) (Fin r) ℚ
  AwF : Matrix (Fin r) (Fin r) ℚ
  AwR : Matrix (Fin r) (Fin r) ℚ
  AhF : Matrix (Fin r) (Fin r) ℚ
  AhR : Matrix (Fin r) (Fin r) ℚ

/-- AbarF (source, inside build_alg5_matrices): lower-triangular r by r
matrix with diagonal weig[0] and entry (j,i) below the diagonal equal to
ArF[j-i-1][r-1] * weig[0]. -/
def buildAbarF {r : ℕ} (wgt : ℕ → ℚ) (ArF : Matrix (Fin r) (Fin r) ℚ) :
    Matrix (Fin r) (Fin r) ℚ :=
  Matrix.of fun j i =>
    if j.1 = i.1 then wgt 0
    else if i.1 < j.1 then
      ArF ⟨j.1 - i.1 - 1, by have := j.2; omega⟩ ⟨r - 1, by have := j.2; omega⟩ * wgt 0
    else 0

/-- build_alg5_matrices (source): all elementary matrices of algorithm 5,
derived from the weights, block side b, order r and the image width and
height; the hypotheses record that r never exceeds b, width or height at
the call sites (b > r is an interface invariant). -/
def build_alg5_matrices (b r width height : ℕ) (wgt : ℕ → ℚ)
    (hrb : r ≤ b) (hrw : r ≤ width) (hrh : r ≤ height) : Alg5M b r :=
  let Zrb : Matrix (Fin r) (Fin b) ℚ := 0
  let Zbr : Matrix (Fin b) (Fin r) ℚ := 0
  let Ir : Matrix (Fin r) (Fin r) ℚ := 1
  let Ib : Matrix (Fin b) (Fin b) ℚ := 1
  let Zwr : Matrix (Fin width) (Fin r) ℚ := 0
  let Zrh : Matrix (Fin r) (Fin height) ℚ := 0
  let K := flipud Ir
  let AFP := F Ir Zbr wgt r
  let AFB := F Zrb Ib wgt r
  let ARE := R Zbr Ir wgt r
  let ARB := R Ib Zrb wgt r
  let AbF := T AFP r hrb
  let AbR := H ARE r hrb
  let HARB := H ARB r hrb
  let HARB_AFP := HARB * AFP
  let HARB_AFB := HARB * AFB
  let AbFT := AbF.transpose
  let TAFBT := (T AFB r hrb).transpose
  let ARB_AFP := ARB * AFP
  let AbRT := AbR.transpose
  let HARB_AFPT := HARB_AFP.transpose
  let HARB_AFBT := HARB_AFB.transpose
  let ArF := H AFP r hrb
  let ArR := flip ArF
  let AbarF := buildAbarF wgt ArF
  let AbarR := flip AbarF
  let AwF := T (F Ir Zwr wgt r) r hrw
  let AwR := H (R Zwr Ir wgt r) r hrw
  let AhF := TT (FT Ir Zrh wgt r) r hrh
  let AhR := HT (RT Zrh Ir wgt r) r hrh
  { Zrb := Zrb, Zbr := Zbr, Ir := Ir, Ib := Ib, AFP := AFP, AFB := AFB,
    AbF := AbF, AbR := AbR, HARB_AFP := HARB_AFP, AbFT := AbFT, AbRT := AbRT,
    HARB_AFPT := HARB_AFPT, HARB_AFBT := HARB_AFBT, ARB_AFP := ARB_AFP,
    TAFBT := TAFBT, ARE := ARE, K := K, ArF := ArF, ArR := ArR,
    AbarF := AbarF, AbarR := AbarR, AwF := AwF, AwR := AwR, AhF := AhF, AhR := AhR }

/-- get_mn (source): number of blocks along each axis, the ceilings of
H/b and W/b. -/
def get_mn (Hd Wd b : ℕ) : ℕ × ℕ := ((Hd + b - 1) / b, (Wd + b - 1) / b)

/-- break_blocks (source): break an image of shape (H, W) into an M by N
grid of b by b blocks via blocks[m][n] = X[m*b:(m+1)*b, n*b:(n+1)*b].
The numpy slice on a trailing edge is shorter than b; assigning it into
the b by b destination follows numpy broadcasting: it succeeds exactly
when each short extent is 1 (the single row or column is then
replicated) or b, and raises otherwise, which the Option models. -/
def break_blocks (X : ℕ → ℕ → ℚ) (Hd Wd b : ℕ) :
    Option (ℕ → ℕ → Matrix (Fin b) (Fin b) ℚ) :=
  let M := (get_mn Hd Wd b).1
  let N := (get_mn Hd Wd b).2
  if (∀ m < M, min b (Hd - m * b) = b ∨ min b (Hd - m * b) = 1) ∧
     (∀ n < N, min b (Wd - n * b) = b ∨ min b (Wd - n * b) = 1) then
    some (fun m n => Matrix.of fun i j =>
      X (m * b + if min b (Hd - m * b) = 1 then 0 else i.1)
        (n * b + if min b (Wd - n * b) = 1 then 0 else j.1))
  else none

/-- join_blocks (source): write the blocks back into an image of the
given shape via image[m*b:(m+1)*b, n*b:(n+1)*b] = blocks[m][n].  The
assignment succeeds only when every destination slice is exactly b by b
(a b by b source cannot broadcast into a shorter slice); cells of the
np.empty result not covered by any block are modelled as 0. -/
def join_blocks {b : ℕ} (blocks : ℕ → ℕ → Matrix (Fin b) (Fin b) ℚ)
    (M N Hd Wd : ℕ) (hb : 0 < b) : Option (ℕ → ℕ → ℚ) :=
  if (∀ m < M, min b (Hd - m * b) = b) ∧ (∀ n < N, min b (Wd - n * b) = b) then
    some (fun i j =>
      if i < M * b ∧ j < N * b then
        blocks (i / b) (j / b) ⟨i % b, Nat.mod_lt _ hb⟩ ⟨j % b, Nat.mod_lt _ hb⟩
      else 0)
  else none

/-- The combined mutable state of the algorithm: the block grid and the
four carry grids.  The numpy arrays (M+1) x N x r x b (P, E) and
M x (N+1) x b x r (Pt, Et) are modelled as total functions on ℕ-indexed
slots; indices outside the array shapes are never read or written by the
embedded stages.  P and E carry the extra boundary row at storage index
M (P[-1] resolves there by Python wraparound, E[M] directly); Pt and Et
carry the extra boundary column at storage index N. -/
@[ext]
structure Alg5State (r b : ℕ) where
  blocks : ℕ → ℕ → Matrix (Fin b) (Fin b) ℚ
  P : ℕ → ℕ → Matrix (Fin r) (Fin b) ℚ
  E : ℕ → ℕ → Matrix (Fin r) (Fin b) ℚ
  Pt : ℕ → ℕ → Matrix (Fin b) (Fin r) ℚ
  Et : ℕ → ℕ → Matrix (Fin b) (Fin r) ℚ

/-- build_alg5_carries (source): all four carry grids zero-initialized
(np.zeros), bundled with the block grid they belong to. -/
def build_alg5_carries {r b : ℕ} (blocks : ℕ → ℕ → Matrix (Fin b) (Fin b) ℚ) :
    Alg5State r b :=
  { blocks := blocks, P := fun _ _ => 0, E := fun _ _ => 0,
    Pt := fun _ _ => 0, Et := fun _ _ => 0 }

/-- Write one slot of a doubly indexed grid. -/
def upd2 {α : Type} (f : ℕ → ℕ → α) (i j : ℕ) (v : α) : ℕ → ℕ → α :=
  fun a c => if a = i ∧ c = j then v else f a c

/-- Python index into an array axis with size slots: negative indices
wrap around from the end, so index -1 resolves to slot size-1. -/
def pyIdx (size : ℕ) (i : ℤ) : ℕ :=
  if i < 0 then (size + i).toNat else i.toNat

/-- Loop body of alg5_stage1 (source) for block (m, n): compute the four
carries of the block independently of every other block. -/
def stage1Body {r b : ℕ} (wgt : ℕ → ℚ) (hrb : r ≤ b) (mats : Alg5M b r)
    (s : Alg5State r b) (mn : ℕ × ℕ) : Alg5State r b :=
  let m := mn.1
  let n := mn.2
  let B := s.blocks m n
  let B1 := F mats.Zrb B wgt r
  let s1 := { s with P := upd2 s.P m n (T B1 r hrb) }
  let B2 := R B1 mats.Zrb wgt r
  let s2 := { s1 with E := upd2 s1.E m n (H B2 r hrb) }
  let B3 := FT mats.Zbr B2 wgt r
  let s3 := { s2 with Pt := upd2 s2.Pt m n (TT B3 r hrb) }
  let B4 := RT B3 mats.Zbr wgt r
  { s3 with Et := upd2 s3.Et m n (HT B4 r hrb) }

/-- alg5_stage1 with an explicit processing order of the block indices
(the source iterates n outer, m inner; stage 1 is order-independent). -/
def alg5_stage1_on {r b : ℕ} (wgt : ℕ → ℚ) (hrb : r ≤ b) (mats : Alg5M b r)
    (order : List (ℕ × ℕ)) (s : Alg5State r b) : Alg5State r b :=
  order.foldl (stage1Body wgt hrb mats) s

/-- The iteration order of the source loops: for n in range(N), for m in
range(M). -/
def canonOrder (M N : ℕ) : List (ℕ × ℕ) :=
  (List.range N).foldl (fun acc n => acc ++ (List.range M).map (fun m => (m, n))) []

/-- alg5_stage1 (source): per-block carry extraction in the source
order. -/
def alg5_stage1 {r b : ℕ} (M N : ℕ) (wgt : ℕ → ℚ) (hrb : r ≤ b)
    (mats : Alg5M b r) (s : Alg5State r b) : Alg5State r b :=
  alg5_stage1_on wgt hrb mats (canonOrder M N) s

/-- One iteration of the eqn. (24) update (source):
P[m][n] += AbF . P[m-1][n], with P[-1] resolving to storage slot M by
Python wraparound. -/
def colPstep {r b : ℕ} (M n : ℕ) (AbF : Matrix (Fin r) (Fin r) ℚ)
    (s : Alg5State r b) (m : ℕ) : Alg5State r b :=
  { s with P := upd2 s.P m n (s.P m n + AbF * s.P (pyIdx (M + 1) ((m : ℤ) - 1)) n) }

/-- The eqn. (24) sweep of stages 2 and 23 variants (source): for
m = 0..M-1, P[m][n] += AbF . P[m-1][n]. -/
def colPsweep {r b : ℕ} (M n : ℕ) (AbF : Matrix (Fin r) (Fin r) ℚ)
    (s : Alg5State r b) : Alg5State r b :=
  (List.range M).foldl (colPstep M n AbF) s

/-- The eqn. (34) sweep of stages 3 and 23 variants (source): for
m = M-1..0, E[m][n] += HARB_AFP . P[m-1][n] + AbR . E[m+1][n]. -/
def colEsweep {r b : ℕ} (M n : ℕ) (HARB_AFP AbR : Matrix (Fin r) (Fin r) ℚ)
    (s : Alg5State r b) : Alg5State r b :=
  ((List.range M).reverse).foldl
    (fun s m =>
      { s with E := upd2 s.E m n
                    (s.E m n + HARB_AFP * s.P (pyIdx (M + 1) ((m : ℤ) - 1)) n
                      + AbR * s.E (m + 1) n) })
    s

/-- alg5_stage23 (source): for every column n, the downward P sweep then
the upward E sweep. -/
def alg5_stage23 {r b : ℕ} (M N : ℕ) (mats : Alg5M b r) (s : Alg5State r b) :
    Alg5State r b :=
  (List.range N).foldl
    (fun s n => colEsweep M n mats.HARB_AFP mats.AbR (colPsweep M n mats.AbF s)) s

/-- The eqn. (37) sweep of stage 4 (source): for n = 0..N-1,
Pt[m][n] += ARB_AFP . (P[m-1][n] . TAFBT) + ARE . (E[m+1][n] . TAFBT)
+ Pt[m][n-1] . AbFT. -/
def rowPtsweep {r b : ℕ} (M N m : ℕ) (mats : Alg5M b r) (s : Alg5State r b) :
    Alg5State r b :=
  (List.range N).foldl
    (fun s n =>
      { s with Pt := upd2 s.Pt m n
                     (s.Pt m n
                       + mats.ARB_AFP * (s.P (pyIdx (M + 1) ((m : ℤ) - 1)) n * mats.TAFBT)
                       + mats.ARE * (s.E (m + 1) n * mats.TAFBT)
                       + s.Pt m (pyIdx (N + 1) ((n : ℤ) - 1)) * mats.AbFT) }) s

/-- The eqn. (39) sweep of stage 5 (source): for n = N-1..0,
Et[m][n] += ARB_AFP . (P[m-1][n] . HARB_AFBT) + ARE . (E[m+1][n] .
HARB_AFBT) + Pt[m][n-1] . HARB_AFPT + Et[m][n+1] . AbRT. -/
def rowEtsweep {r b : ℕ} (M N m : ℕ) (mats : Alg5M b r) (s : Alg5State r b) :
    Alg5State r b :=
  ((List.range N).reverse).foldl
    (fun s n =>
      { s with Et := upd2 s.Et m n
                     (s.Et m n
                       + mats.ARB_AFP * (s.P (pyIdx (M + 1) ((m : ℤ) - 1)) n * mats.HARB_AFBT)
                       + mats.ARE * (s.E (m + 1) n * mats.HARB_AFBT)
                       + s.Pt m (pyIdx (N + 1) ((n : ℤ) - 1)) * mats.HARB_AFPT
                       + s.Et m (n + 1) * mats.AbRT) }) s

/-- alg5_stage45 (source): for every row m, the rightward Pt sweep
(eqn. 37) then the leftward Et sweep (eqn. 39), reading the resolved P
and E carries. -/
def alg5_stage45 {r b : ℕ} (M N : ℕ) (mats : Alg5M b r) (s : Alg5State r b) :
    Alg5State r b :=
  (List.range M).foldl (fun s m => rowEtsweep M N m mats (rowPtsweep M N m mats s)) s

/-- The tuple returned by build_pe_matrices (source). -/
structure PePack (r : ℕ) where
  IAhF : Matrix (Fin r) (Fin r) ℚ
  IAhR : Matrix (Fin r) (Fin r) ℚ
  IAwF : Matrix (Fin r) (Fin r) ℚ
  IAwR : Matrix (Fin r) (Fin r) ℚ

/-- build_pe_matrices (source): the periodic-extension matrices; IAhF
and IAhR are stored pre-transposed for left multiplication of r x b
carries. -/
def build_pe_matrices {b r : ℕ} (wgt : ℕ → ℚ) (mats : Alg5M b r) :
    Except FilterError (PePack r) :=
  (npinv (mats.Ir - mats.AwF)).bind fun IAwF =>
  (npinv (mats.Ir - mats.AwR)).bind fun IAwR =>
  (npinv (mats.Ir - mats.AhF)).bind fun IAhF0 =>
  (npinv (mats.Ir - mats.AhR)).bind fun IAhR0 =>
  .ok { IAhF := IAhF0.transpose, IAhR := IAhR0.transpose, IAwF := IAwF, IAwR := IAwR }

/-- The per-column body of alg5_pe_stage23 (source): a first
accumulation pass with PM1Y initialized from the Zrb slot of the pack
(np.copy of the zero block), the boundary write P[-1][n] = IAhF . PM1Y,
the standard P sweep, then the analogous E0Z pass, boundary write
E[M][n] = IAhR . E0Z and standard E sweep. -/
def peColBody {r b : ℕ} (M : ℕ) (mats : Alg5M b r) (pem : PePack r)
    (s : Alg5State r b) (n : ℕ) : Alg5State r b :=
  let PM1Y := (List.range M).foldl (fun acc m => s.P m n + mats.AbF * acc) mats.Zrb
  let s1 := { s with P := upd2 s.P (pyIdx (M + 1) (-1)) n (pem.IAhF * PM1Y) }
  let s2 := colPsweep M n mats.AbF s1
  let E0Z := ((List.range M).reverse).foldl
    (fun acc m =>
      s2.E m n + mats.HARB_AFP * s2.P (pyIdx (M + 1) ((m : ℤ) - 1)) n + mats.AbR * acc)
    mats.Zrb
  let s3 := { s2 with E := upd2 s2.E M n (pem.IAhR * E0Z) }
  colEsweep M n mats.HARB_AFP mats.AbR s3

/-- alg5_pe_stage23 (source): the periodic-extension vertical solver,
running the column body over every column. -/
def alg5_pe_stage23 {r b : ℕ} (M N : ℕ) (mats : Alg5M b r) (pem : PePack r)
    (s : Alg5State r b) : Alg5State r b :=
  (List.range N).foldl (peColBody M mats pem) s

/-- The tuple returned by build_cpe_matrices (source). -/
structure CpePack (r : ℕ) where
  SFAbarF : Matrix (Fin r) (Fin r) ℚ
  SRFArF : Matrix (Fin r) (Fin r) ℚ
  SRAbaRSRFArFSFAbarF : Matrix (Fin r) (Fin r) ℚ
  AbarFSFT : Matrix (Fin r) (Fin r) ℚ
  ArFSRFT : Matrix (Fin r) (Fin r) ℚ
  AbarFSFSRAbaRSRFArFT : Matrix (Fin r) (Fin r) ℚ

/-- The r*r by r*r system matrix of build_cpe_matrices (source): entry
(r*i+j, r*p+q) is the identity minus ArR[j][q] * ArF[p][i]. -/
def sysAOf {r : ℕ} (hr : 0 < r) (ArR ArF : Matrix (Fin r) (Fin r) ℚ) :
    Matrix (Fin (r * r)) (Fin (r * r)) ℚ :=
  Matrix.of fun k u =>
    (if k = u then 1 else 0) -
      ArR ⟨k.1 % r, Nat.mod_lt _ hr⟩ ⟨u.1 % r, Nat.mod_lt _ hr⟩ *
        ArF ⟨u.1 / r, Nat.div_lt_of_lt_mul u.2⟩ ⟨k.1 / r, Nat.div_lt_of_lt_mul k.2⟩

/-- The right-hand side of the same system: sysb[r*i+j] = AbarR[j][i]. -/
def sysbOf {r : ℕ} (hr : 0 < r) (AbarR : Matrix (Fin r) (Fin r) ℚ) :
    Fin (r * r) → ℚ :=
  fun k => AbarR ⟨k.1 % r, Nat.mod_lt _ hr⟩ ⟨k.1 / r, Nat.div_lt_of_lt_mul k.2⟩

/-- build_cpe_matrices (source): the constant-padding extension
matrices.  The scipy LU solve of the r² system never raises (scipy only
warns on a singular system); only the two np.linalg.inv calls fail on a
singular matrix, and every failure surfaces from this builder. -/
def build_cpe_matrices {b r : ℕ} (hr : 0 < r) (wgt : ℕ → ℚ) (mats : Alg5M b r) :
    Except FilterError (CpePack r) :=
  let sysA := sysAOf hr mats.ArR mats.ArF
  let sysb := sysbOf hr mats.AbarR
  let sysx := luSolve sysA sysb
  let SRF : Matrix (Fin r) (Fin r) ℚ := Matrix.of fun j i =>
    sysx ⟨r * i.1 + j.1, by
      have hj := j.2
      have hm : r * (i.1 + 1) ≤ r * r := Nat.mul_le_mul_left r i.2
      have hs : r * (i.1 + 1) = r * i.1 + r := Nat.mul_succ r i.1
      omega⟩
  (npinv (mats.Ir - mats.ArF)).bind fun SF =>
  (npinv (mats.Ir - mats.ArR)).bind fun SR =>
  let SFAbarF := SF * mats.AbarF
  let SRFArF := SRF * mats.ArF
  let SRAbaRSRFArFSFAbarF := (SR * mats.AbarR - SRF * mats.ArF) * SF * mats.AbarF
  .ok { SFAbarF := SFAbarF, SRFArF := SRFArF,
        SRAbaRSRFArFSFAbarF := SRAbaRSRFArFSFAbarF,
        AbarFSFT := SFAbarF.transpose, ArFSRFT := SRFArF.transpose,
        AbarFSFSRAbaRSRFArFT := SRAbaRSRFArFSFAbarF.transpose }

/-- The tuple returned by build_epe_matrices (source). -/
structure EpePack (r : ℕ) where
  L : Matrix (Fin r) (Fin r) ℚ
  M1w : Matrix (Fin r) (Fin r) ℚ
  M2w : Matrix (Fin r) (Fin r) ℚ
  M1h : Matrix (Fin r) (Fin r) ℚ
  M2h : Matrix (Fin r) (Fin r) ℚ

/-- build_epe_matrices (source): the even-periodic extension matrices;
all four inversions fail on a singular matrix, and every failure
surfaces from this builder. -/
def build_epe_matrices {b r : ℕ} (wgt : ℕ → ℚ) (mats : Alg5M b r) :
    Except FilterError (EpePack r) :=
  (npinv (mats.K - mats.ArR)).bind fun KArRi =>
  let L := KArRi * mats.AbarR
  (npinv (mats.Ir - mats.AwF * mats.AwF)).bind fun IA2wF =>
  (npinv (mats.Ir - mats.AhF * mats.AhF)).bind fun IA2hF =>
  (npinv mats.AbarF).bind fun AbarFi =>
  let M1w := IA2wF * (mats.K * (AbarFi * (mats.Ir - mats.ArF * mats.ArR)))
  let M2w := IA2wF * (mats.AwF + mats.K * (mats.AwR * (AbarFi * (mats.ArF * mats.AbarR))))
  let M1h := IA2hF * (mats.K * (AbarFi * (mats.Ir - mats.ArF * mats.ArR)))
  let M2h := IA2hF * (mats.AhF + mats.K * (mats.AhR * (AbarFi * (mats.ArF * mats.AbarR))))
  .ok { L := L, M1w := M1w, M2w := M2w, M1h := M1h, M2h := M2h }

/-- Loop body of alg5_cpe_stage1 (source) for block (m, n): like stage 1
for zero padding, but additionally saving the boundary carries needed by
the later fixing stages.  The P and E boundary tiles are taken from the
original block B before any sweep; the Pt and Et boundary tiles are
taken from the block after the two row sweeps (the source reads B after
it was rebound to R(F(B))); the E branch is an elif of the m = 0 test
and the Et branch an elif of the n = 0 test. -/
def cpeStage1Body {r b : ℕ} (M N : ℕ) (wgt : ℕ → ℚ) (hrb : r ≤ b) (hb : 0 < b)
    (mats : Alg5M b r) (s : Alg5State r b) (mn : ℕ × ℕ) : Alg5State r b :=
  let m := mn.1
  let n := mn.2
  let B := s.blocks m n
  let s0 :=
    if m = 0 then { s with P := upd2 s.P (pyIdx (M + 1) (-1)) n (tileR r (H B 1 hb)) }
    else if m = M - 1 then { s with E := upd2 s.E M n (tileR r (T B 1 hb)) }
    else s
  let B1 := F mats.Zrb B wgt r
  let s1 := { s0 with P := upd2 s0.P m n (T B1 r hrb) }
  let B2 := R B1 mats.Zrb wgt r
  let s2 := { s1 with E := upd2 s1.E m n (H B2 r hrb) }
  let s3 :=
    if n = 0 then { s2 with Pt := upd2 s2.Pt m (pyIdx (N + 1) (-1)) (tileC r (HT B2 1 hb)) }
    else if n = N - 1 then { s2 with Et := upd2 s2.Et m N (tileC r (TT B2 1 hb)) }
    else s2
  let B3 := FT mats.Zbr B2 wgt r
  let s4 := { s3 with Pt := upd2 s3.Pt m n (TT B3 r hrb) }
  let B4 := RT B3 mats.Zbr wgt r
  { s4 with Et := upd2 s4.Et m n (HT B4 r hrb) }

/-- alg5_cpe_stage1 (source): constant-padding stage 1 in the source
order (n outer, m inner). -/
def alg5_cpe_stage1 {r b : ℕ} (M N : ℕ) (wgt : ℕ → ℚ) (hrb : r ≤ b) (hb : 0 < b)
    (mats : Alg5M b r) (s : Alg5State r b) : Alg5State r b :=
  (canonOrder M N).foldl (cpeStage1Body M N wgt hrb hb mats) s

section Lemmas

variable {r b : ℕ}

/-- A fold whose step preserves a projection of the state preserves it
globally. -/
theorem foldl_proj_eq {σ : Type} {α : Type} {γ : Type} (g : σ → γ)
    (f : σ → α → σ) (hf : ∀ s x, g (f s x) = g s) :
    ∀ (l : List α) (s : σ), g (l.foldl f s) = g s := by
  intro l
  induction l with
  | nil => intro s; rfl
  | cons x xs ih => intro s; rw [List.foldl_cons, ih, hf]

theorem colPsweep_blocks (M n : ℕ) (A : Matrix (Fin r) (Fin r) ℚ) (s : Alg5State r b) :
    (colPsweep M n A s).blocks = s.blocks := by
  unfold colPsweep
  apply foldl_proj_eq
  intro t x
  rfl

theorem colPsweep_E (M n : ℕ) (A : Matrix (Fin r) (Fin r) ℚ) (s : Alg5State r b) :
    (colPsweep M n A s).E = s.E := by
  unfold colPsweep
  apply foldl_proj_eq
  intro t x
  rfl

theorem colPsweep_Pt (M n : ℕ) (A : Matrix (Fin r) (Fin r) ℚ) (s : Alg5State r b) :
    (colPsweep M n A s).Pt = s.Pt := by
  unfold colPsweep
  apply foldl_proj_eq
  intro t x
  rfl

theorem colPsweep_Et (M n : ℕ) (A : Matrix (Fin r) (Fin r) ℚ) (s : Alg5State r b) :
    (colPsweep M n A s).Et = s.Et := by
  unfold colPsweep
  apply foldl_proj_eq
  intro t x
  rfl

theorem colEsweep_blocks (M n : ℕ) (A1 A2 : Matrix (Fin r) (Fin r) ℚ) (s : Alg5State r b) :
    (colEsweep M n A1 A2 s).blocks = s.blocks := by
  unfold colEsweep
  apply foldl_proj_eq
  intro t x
  rfl

theorem colEsweep_P (M n : ℕ) (A1 A2 : Matrix (Fin r) (Fin r) ℚ) (s : Alg5State r b) :
    (colEsweep M n A1 A2 s).P = s.P := by
  unfold colEsweep
  apply foldl_proj_eq
  intro t x
  rfl

theorem colEsweep_Pt (M n : ℕ) (A1 A2 : Matrix (Fin r) (Fin r) ℚ) (s : Alg5State r b) :
    (colEsweep M n A1 A2 s).Pt = s.Pt := by
  unfold colEsweep
  apply foldl_proj_eq
  intro t x
  rfl

theorem colEsweep_Et (M n : ℕ) (A1 A2 : Matrix (Fin r) (Fin r) ℚ) (s : Alg5State r b) :
    (colEsweep M n A1 A2 s).Et = s.Et := by
  unfold colEsweep
  apply foldl_proj_eq
  intro t x
  rfl

theorem rowPtsweep_blocks (M N m : ℕ) (mats : Alg5M b r) (s : Alg5State r b) :
    (rowPtsweep M N m mats s).blocks = s.blocks := by
  unfold rowPtsweep
  apply foldl_proj_eq
  intro t x
  rfl

theorem rowPtsweep_P (M N m : ℕ) (mats : Alg5M b r) (s : Alg5State r b) :
    (rowPtsweep M N m mats s).P = s.P := by
  unfold rowPtsweep
  apply foldl_proj_eq
  intro t x
  rfl

theorem rowPtsweep_E (M N m : ℕ) (mats : Alg5M b r) (s : Alg5State r b) :
    (rowPtsweep M N m mats s).E = s.E := by
  unfold rowPtsweep
  apply foldl_proj_eq
  intro t x
  rfl

theorem rowPtsweep_Et (M N m : ℕ) (mats : Alg5M b r) (s : Alg5State r b) :
    (rowPtsweep M N m mats s).Et = s.Et := by
  unfold rowPtsweep
  apply foldl_proj_eq
  intro t x
  rfl

theorem rowEtsweep_blocks (M N m : ℕ) (mats : Alg5M b r) (s : Alg5State r b) :
    (rowEtsweep M N m mats s).blocks = s.blocks := by
  unfold rowEtsweep
  apply foldl_proj_eq
  intro t x
  rfl

theorem rowEtsweep_P (M N m : ℕ) (mats : Alg5M b r) (s : Alg5State r b) :
    (rowEtsweep M N m mats s).P = s.P := by
  unfold rowEtsweep
  apply foldl_proj_eq
  intro t x
  rfl

theorem rowEtsweep_E (M N m : ℕ) (mats : Alg5M b r) (s : Alg5State r b) :
    (rowEtsweep M N m mats s).E = s.E := by
  unfold rowEtsweep
  apply foldl_proj_eq
  intro t x
  rfl

theorem rowEtsweep_Pt (M N m : ℕ) (mats : Alg5M b r) (s : Alg5State r b) :
    (rowEtsweep M N m mats s).Pt = s.Pt := by
  unfold rowEtsweep
  apply foldl_proj_eq
  intro t x
  rfl

end Lemmas

/-- C9: each carry-propagation stage writes only its own carry arrays
and never the image blocks: alg5_stage1 leaves the blocks unchanged,
alg5_stage23 changes neither the blocks nor Pt nor Et (it writes only P
and E), and alg5_stage45 changes neither the blocks nor P nor E (it
writes only Pt and Et). -/
theorem stage_frame_effects {r b : ℕ} (M N : ℕ) (wgt : ℕ → ℚ) (hrb : r ≤ b)
    (mats : Alg5M b r) (s : Alg5State r b) :
    (alg5_stage1 M N wgt hrb mats s).blocks = s.blocks ∧
    (alg5_stage23 M N mats s).blocks = s.blocks ∧
    (alg5_stage23 M N mats s).Pt = s.Pt ∧
    (alg5_stage23 M N mats s).Et = s.Et ∧
    (alg5_stage45 M N mats s).blocks = s.blocks ∧
    (alg5_stage45 M N mats s).P = s.P ∧
    (alg5_stage45 M N mats s).E = s.E := by
  refine ⟨?_, ?_, ?_, ?_, ?_, ?_, ?_⟩
  · unfold alg5_stage1 alg5_stage1_on
    apply foldl_proj_eq
    intro t x
    rfl
  · unfold alg5_stage23
    apply foldl_proj_eq
    intro t n
    rw [colEsweep_blocks, colPsweep_blocks]
  · unfold alg5_stage23
    apply foldl_proj_eq
    intro t n
    rw [colEsweep_Pt, colPsweep_Pt]
  · unfold alg5_stage23
    apply foldl_proj_eq
    intro t n
    rw [colEsweep_Et, colPsweep_Et]
  · unfold alg5_stage45
    apply foldl_proj_eq
    intro t m
    rw [rowEtsweep_blocks, rowPtsweep_blocks]
  · unfold alg5_stage45
    apply foldl_proj_eq
    intro t m
    rw [rowEtsweep_P, rowPtsweep_P]
  · unfold alg5_stage45
    apply foldl_proj_eq
    intro t m
    rw [rowEtsweep_E, rowPtsweep_E]

/-- C9 witness: the frame property instantiated at a concrete size, with
the r at most b hypothesis discharged. -/
theorem stage_frame_effects_witness :
    ((alg5_stage1 1 1 (fun _ => 1) (by decide)
        (build_alg5_matrices 2 1 2 2 (fun _ => 1) (by decide) (by decide) (by decide))
        (build_alg5_carries (fun _ _ => 0))).blocks = (fun _ _ => 0) ∧
      (alg5_stage23 1 1
        (build_alg5_matrices 2 1 2 2 (fun _ => 1) (by decide) (by decide) (by decide))
        (build_alg5_carries (fun _ _ => 0))).blocks = (fun _ _ => 0) ∧
      (alg5_stage23 1 1
        (build_alg5_matrices 2 1 2 2 (fun _ => 1) (by decide) (by decide) (by decide))
        (build_alg5_carries (fun _ _ => 0))).Pt = (build_alg5_carries
          (r := 1) (fun (_ _ : ℕ) => (0 : Matrix (Fin 2) (Fin 2) ℚ))).Pt ∧
      (alg5_stage23 1 1
        (build_alg5_matrices 2 1 2 2 (fun _ => 1) (by decide) (by decide) (by decide))
        (build_alg5_carries (fun _ _ => 0))).Et = (build_alg5_carries
          (r := 1) (fun (_ _ : ℕ) => (0 : Matrix (Fin 2) (Fin 2) ℚ))).Et ∧
      (alg5_stage45 1 1
        (build_alg5_matrices 2 1 2 2 (fun _ => 1) (by decide) (by decide) (by decide))
        (build_alg5_carries (fun _ _ => 0))).blocks = (fun _ _ => 0) ∧
      (alg5_stage45 1 1
        (build_alg5_matrices 2 1 2 2 (fun _ => 1) (by decide) (by decide) (by decide))
        (build_alg5_carries (fun _ _ => 0))).P = (build_alg5_carries
          (r := 1) (fun (_ _ : ℕ) => (0 : Matrix (Fin 2) (Fin 2) ℚ))).P ∧
      (alg5_stage45 1 1
        (build_alg5_matrices 2 1 2 2 (fun _ => 1) (by decide) (by decide) (by decide))
        (build_alg5_carries (fun _ _ => 0))).E = (build_alg5_carries
          (r := 1) (fun (_ _ : ℕ) => (0 : Matrix (Fin 2) (Fin 2) ℚ))).E) :=
  stage_frame_effects 1 1 (fun _ => 1) (by decide)
    (build_alg5_matrices 2 1 2 2 (fun _ => 1) (by decide) (by decide) (by decide))
    (build_alg5_carries (fun _ _ => 0))

/-- C5 counterexample: with weights (1, 1), b = 2, r = 1, the matrix
packs built for image width 1 and for image width 2 differ in their AwF
field (the full-width forward propagation matrix is [[-1]] for width 1
and [[1]] for width 2), so build_alg5_matrices does not return identical
packs for the same (w, b, r) at different image sizes. -/
theorem build_alg5_matrices_width_dependent :
    (build_alg5_matrices 2 1 1 1 (fun _ => 1) (by decide) (by decide) (by decide)).AwF ≠
      (build_alg5_matrices 2 1 2 1 (fun _ => 1) (by decide) (by decide) (by decide)).AwF := by
  intro h
  have h1 : (build_alg5_matrices 2 1 1 1 (fun _ => 1)
      (by decide) (by decide) (by decide)).AwF 0 0 = -1 := by
    simp [build_alg5_matrices, T, F, FT, fwdRun, fwdStep, List.range_succ,
      rowf, pyv, Matrix.submatrix_apply, Matrix.transpose_apply, Function.update_apply]
    norm_num [Matrix.one_apply, Fin.ext_iff]
  have h2 : (build_alg5_matrices 2 1 2 1 (fun _ => 1)
      (by decide) (by decide) (by decide)).AwF 0 0 = 1 := by
    simp [build_alg5_matrices, T, F, FT, fwdRun, fwdStep, List.range_succ,
      rowf, pyv, Matrix.submatrix_apply, Matrix.transpose_apply, Function.update_apply]
    norm_num [Matrix.one_apply, Fin.ext_iff]
  rw [h] at h1
  have h3 := h1.symm.trans h2
  norm_num at h3

/-- C5 amended: every elementary matrix of the pack except the four
image-size response matrices AwF, AwR, AhF, AhR depends only on the
weights, block side b and order r; two builds with the same (w, b, r)
but different image width and height agree on those 21 fields, while
AwF, AwR, AhF and AhR can differ (see the counterexample). -/
theorem build_alg5_matrices_core_size_independent (b r W1 H1 W2 H2 : ℕ)
    (wgt : ℕ → ℚ) (hrb : r ≤ b) (hw1 : r ≤ W1) (hh1 : r ≤ H1)
    (hw2 : r ≤ W2) (hh2 : r ≤ H2) :
    (build_alg5_matrices b r W1 H1 wgt hrb hw1 hh1).Zrb
        = (build_alg5_matrices b r W2 H2 wgt hrb hw2 hh2).Zrb ∧
    (build_alg5_matrices b r W1 H1 wgt hrb hw1 hh1).Zbr
        = (build_alg5_matrices b r W2 H2 wgt hrb hw2 hh2).Zbr ∧
    (build_alg5_matrices b r W1 H1 wgt hrb hw1 hh1).Ir
        = (build_alg5_matrices b r W2 H2 wgt hrb hw2 hh2).Ir ∧
    (build_alg5_matrices b r W1 H1 wgt hrb hw1 hh1).Ib
        = (build_alg5_matrices b r W2 H2 wgt hrb hw2 hh2).Ib ∧
    (build_alg5_matrices b r W1 H1 wgt hrb hw1 hh1).AFP
        = (build_alg5_matrices b r W2 H2 wgt hrb hw2 hh2).AFP ∧
    (build_alg5_matrices b r W1 H1 wgt hrb hw1 hh1).AFB
        = (build_alg5_matrices b r W2 H2 wgt hrb hw2 hh2).AFB ∧
    (build_alg5_matrices b r W1 H1 wgt hrb hw1 hh1).AbF
        = (build_alg5_matrices b r W2 H2 wgt hrb hw2 hh2).AbF ∧
    (build_alg5_matrices b r W1 H1 wgt hrb hw1 hh1).AbR
        = (build_alg5_matrices b r W2 H2 wgt hrb hw2 hh2).AbR ∧
    (build_alg5_matrices b r W1 H1 wgt hrb hw1 hh1).HARB_AFP
        = (build_alg5_matrices b r W2 H2 wgt hrb hw2 hh2).HARB_AFP ∧
    (build_alg5_matrices b r W1 H1 wgt hrb hw1 hh1).AbFT
        = (build_alg5_matrices b r W2 H2 wgt hrb hw2 hh2).AbFT ∧
    (build_alg5_matrices b r W1 H1 wgt hrb hw1 hh1).AbRT
        = (build_alg5_matrices b r W2 H2 wgt hrb hw2 hh2).AbRT ∧
    (build_alg5_matrices b r W1 H1 wgt hrb hw1 hh1).HARB_AFPT
        = (build_alg5_matrices b r W2 H2 wgt hrb hw2 hh2).HARB_AFPT ∧
    (build_alg5_matrices b r W1 H1 wgt hrb hw1 hh1).HARB_AFBT
        = (build_alg5_matrices b r W2 H2 wgt hrb hw2 hh2).HARB_AFBT ∧
    (build_alg5_matrices b r W1 H1 wgt hrb hw1 hh1).ARB_AFP
        = (build_alg5_matrices b r W2 H2 wgt hrb hw2 hh2).ARB_AFP ∧
    (build_alg5_matrices b r W1 H1 wgt hrb hw1 hh1).TAFBT
        = (build_alg5_matrices b r W2 H2 wgt hrb hw2 hh2).TAFBT ∧
    (build_alg5_matrices b r W1 H1 wgt hrb hw1 hh1).ARE
        = (build_alg5_matrices b r W2 H2 wgt hrb hw2 hh2).ARE ∧
    (build_alg5_matrices b r W1 H1 wgt hrb hw1 hh1).K
        = (build_alg5_matrices b r W2 H2 wgt hrb hw2 hh2).K ∧
    (build_alg5_matrices b r W1 H1 wgt hrb hw1 hh1).ArF
        = (build_alg5_matrices b r W2 H2 wgt hrb hw2 hh2).ArF ∧
    (build_alg5_matrices b r W1 H1 wgt hrb hw1 hh1).ArR
        = (build_alg5_matrices b r W2 H2 wgt hrb hw2 hh2).ArR ∧
    (build_alg5_matrices b r W1 H1 wgt hrb hw1 hh1).AbarF
        = (build_alg5_matrices b r W2 H2 wgt hrb hw2 hh2).AbarF ∧
    (build_alg5_matrices b r W1 H1 wgt hrb hw1 hh1).AbarR
        = (build_alg5_matrices b r W2 H2 wgt hrb hw2 hh2).AbarR :=
  ⟨rfl, rfl, rfl, rfl, rfl, rfl, rfl, rfl, rfl, rfl, rfl,
    rfl, rfl, rfl, rfl, rfl, rfl, rfl, rfl, rfl, rfl⟩

/-- C5 amended witness: the 21 size-independent fields agree between the
concrete builds used in the counterexample. -/
theorem build_alg5_matrices_core_size_independent_witness :
    (build_alg5_matrices 2 1 1 1 (fun _ => 1) (by decide) (by decide) (by decide)).Zrb
        = (build_alg5_matrices 2 1 2 1 (fun _ => 1) (by decide) (by decide) (by decide)).Zrb ∧
    (build_alg5_matrices 2 1 1 1 (fun _ => 1) (by decide) (by decide) (by decide)).Zbr
        = (build_alg5_matrices 2 1 2 1 (fun _ => 1) (by decide) (by decide) (by decide)).Zbr ∧
    (build_alg5_matrices 2 1 1 1 (fun _ => 1) (by decide) (by decide) (by decide)).Ir
        = (build_alg5_matrices 2 1 2 1 (fun _ => 1) (by decide) (by decide) (by decide)).Ir ∧
    (build_alg5_matrices 2 1 1 1 (fun _ => 1) (by decide) (by decide) (by decide)).Ib
        = (build_alg5_matrices 2 1 2 1 (fun _ => 1) (by decide) (by decide) (by decide)).Ib ∧
    (build_alg5_matrices 2 1 1 1 (fun _ => 1) (by decide) (by decide) (by decide)).AFP
        = (build_alg5_matrices 2 1 2 1 (fun _ => 1) (by decide) (by decide) (by decide)).AFP ∧
    (build_alg5_matrices 2 1 1 1 (fun _ => 1) (by decide) (by decide) (by decide)).AFB
        = (build_alg5_matrices 2 1 2 1 (fun _ => 1) (by decide) (by decide) (by decide)).AFB ∧
    (build_alg5_matrices 2 1 1 1 (fun _ => 1) (by decide) (by decide) (by decide)).AbF
        = (build_alg5_matrices 2 1 2 1 (fun _ => 1) (by decide) (by decide) (by decide)).AbF ∧
    (build_alg5_matrices 2 1 1 1 (fun _ => 1) (by decide) (by decide) (by decide)).AbR
        = (build_alg5_matrices 2 1 2 1 (fun _ => 1) (by decide) (by decide) (by decide)).AbR ∧
    (build_alg5_matrices 2 1 1 1 (fun _ => 1) (by decide) (by decide) (by decide)).HARB_AFP
        = (build_alg5_matrices 2 1 2 1 (fun _ => 1) (by decide) (by decide) (by decide)).HARB_AFP ∧
    (build_alg5_matrices 2 1 1 1 (fun _ => 1) (by decide) (by decide) (by decide)).AbFT
        = (build_alg5_matrices 2 1 2 1 (fun _ => 1) (by decide) (by decide) (by decide)).AbFT ∧
    (build_alg5_matrices 2 1 1 1 (fun _ => 1) (by decide) (by decide) (by decide)).AbRT
        = (build_alg5_matrices 2 1 2 1 (fun _ => 1) (by decide) (by decide) (by decide)).AbRT ∧
    (build_alg5_matrices 2 1 1 1 (fun _ => 1) (by decide) (by decide) (by decide)).HARB_AFPT
        = (build_alg5_matrices 2 1 2 1 (fun _ => 1) (by decide) (by decide) (by decide)).HARB_AFPT ∧
    (build_alg5_matrices 2 1 1 1 (fun _ => 1) (by decide) (by decide) (by decide)).HARB_AFBT
        = (build_alg5_matrices 2 1 2 1 (fun _ => 1) (by decide) (by decide) (by decide)).HARB_AFBT ∧
    (build_alg5_matrices 2 1 1 1 (fun _ => 1) (by decide) (by decide) (by decide)).ARB_AFP
        = (build_alg5_matrices 2 1 2 1 (fun _ => 1) (by decide) (by decide) (by decide)).ARB_AFP ∧
    (build_alg5_matrices 2 1 1 1 (fun _ => 1) (by decide) (by decide) (by decide)).TAFBT
        = (build_alg5_matrices 2 1 2 1 (fun _ => 1) (by decide) (by decide) (by decide)).TAFBT ∧
    (build_alg5_matrices 2 1 1 1 (fun _ => 1) (by decide) (by decide) (by decide)).ARE
        = (build_alg5_matrices 2 1 2 1 (fun _ => 1) (by decide) (by decide) (by decide)).ARE ∧
    (build_alg5_matrices 2 1 1 1 (fun _ => 1) (by decide) (by decide) (by decide)).K
        = (build_alg5_matrices 2 1 2 1 (fun _ => 1) (by decide) (by decide) (by decide)).K ∧
    (build_alg5_matrices 2 1 1 1 (fun _ => 1) (by decide) (by decide) (by decide)).ArF
        = (build_alg5_matrices 2 1 2 1 (fun _ => 1) (by decide) (by decide) (by decide)).ArF ∧
    (build_alg5_matrices 2 1 1 1 (fun _ => 1) (by decide) (by decide) (by decide)).ArR
        = (build_alg5_matrices 2 1 2 1 (fun _ => 1) (by decide) (by decide) (by decide)).ArR ∧
    (build_alg5_matrices 2 1 1 1 (fun _ => 1) (by decide) (by decide) (by decide)).AbarF
        = (build_alg5_matrices 2 1 2 1 (fun _ => 1) (by decide) (by decide) (by decide)).AbarF ∧
    (build_alg5_matrices 2 1 1 1 (fun _ => 1) (by decide) (by decide) (by decide)).AbarR
        = (build_alg5_matrices 2 1 2 1 (fun _ => 1) (by decide) (by decide) (by decide)).AbarR :=
  build_alg5_matrices_core_size_independent 2 1 1 1 2 1 (fun _ => 1)
    (by decide) (by decide) (by decide) (by decide) (by decide)

/-- Ceiling division (H + b - 1) / b of an exact multiple H = b * k is
exactly k. -/
theorem ceil_div_of_dvd {b k : ℕ} (hb : 0 < b) : (b * k + b - 1) / b = k := by
  have h1 : b * k + b - 1 = b - 1 + b * k := by omega
  rw [h1, Nat.add_mul_div_left _ _ hb, Nat.div_eq_of_lt (by omega)]
  omega

/-- Helper: on an image whose height and width are exact multiples of b,
break_blocks succeeds, the grid has H/b by W/b blocks, and every block
holds exactly its slice of the image. -/
theorem break_blocks_dvd_aux (X : ℕ → ℕ → ℚ) (Hd Wd b : ℕ) (hb : 0 < b)
    (hH : b ∣ Hd) (hW : b ∣ Wd) :
    ∃ bl, break_blocks X Hd Wd b = some bl ∧
      (get_mn Hd Wd b).1 = Hd / b ∧ (get_mn Hd Wd b).2 = Wd / b ∧
      ∀ m < Hd / b, ∀ n < Wd / b, ∀ (i j : Fin b),
        bl m n i j = X (m * b + i.1) (n * b + j.1) := by
  obtain ⟨k, rfl⟩ := hH
  obtain ⟨l, rfl⟩ := hW
  have hMk : (get_mn (b * k) (b * l) b).1 = k := ceil_div_of_dvd hb
  have hNl : (get_mn (b * k) (b * l) b).2 = l := ceil_div_of_dvd hb
  have hdk : b * k / b = k := Nat.mul_div_cancel_left k hb
  have hdl : b * l / b = l := Nat.mul_div_cancel_left l hb
  have hmin : ∀ t c, t < c → min b (b * c - t * b) = b := by
    intro t c htc
    have h1 : (t + 1) * b ≤ c * b := Nat.mul_le_mul_right b (by omega)
    have h2 : (t + 1) * b = t * b + b := by ring
    have h3 : b * c = c * b := Nat.mul_comm b c
    omega
  have hcond : (∀ m < (get_mn (b * k) (b * l) b).1,
      min b (b * k - m * b) = b ∨ min b (b * k - m * b) = 1) ∧
      (∀ n < (get_mn (b * k) (b * l) b).2,
      min b (b * l - n * b) = b ∨ min b (b * l - n * b) = 1) := by
    constructor
    · intro m hm
      rw [hMk] at hm
      exact Or.inl (hmin m k hm)
    · intro n hn
      rw [hNl] at hn
      exact Or.inl (hmin n l hn)
  refine ⟨fun m n => Matrix.of fun i j =>
      X (m * b + if min b (b * k - m * b) = 1 then 0 else i.1)
        (n * b + if min b (b * l - n * b) = 1 then 0 else j.1),
    ?_, by rw [hMk, hdk], by rw [hNl, hdl], ?_⟩
  · unfold break_blocks
    rw [if_pos hcond]
  · intro m hm n hn i j
    rw [hdk] at hm
    rw [hdl] at hn
    have e1 : (if min b (b * k - m * b) = 1 then 0 else i.1) = i.1 := by
      rcases Nat.lt_or_ge 1 b with hb1 | hb1
      · rw [hmin m k hm]
        have := i.2
        simp
        omega
      · have hb2 : b = 1 := by omega
        have hi : i.1 = 0 := by have := i.2; omega
        rw [hi]
        simp
    have e2 : (if min b (b * l - n * b) = 1 then 0 else j.1) = j.1 := by
      rcases Nat.lt_or_ge 1 b with hb1 | hb1
      · rw [hmin n l hn]
        have := j.2
        simp
        omega
      · have hb2 : b = 1 := by omega
        have hj : j.1 = 0 := by have := j.2; omega
        rw [hj]
        simp
    simp only [Matrix.of_apply]
    rw [e1, e2]

/-- C2 counterexample: on a constant-7 image of shape (3, 2) with block
side 2, the decomposer succeeds (the trailing remainder of 1 row
broadcasts), but the cell of block (1,0) at local row 1, which lies
outside the 3-row image, holds the replicated edge value 7, not the
claimed zero padding. -/
theorem break_blocks_trailing_not_zero :
    (break_blocks (fun _ _ => (7 : ℚ)) 3 2 2).map (fun bl => bl 1 0 1 0) = some 7 ∧
      (7 : ℚ) ≠ 0 := by
  constructor
  · decide
  · decide

/-- C2 amended: when H and W are exact multiples of b, break_blocks
returns the ceil(H/b) by ceil(W/b) grid whose block (m, n) holds
exactly rows [m*b, (m+1)*b) and columns [n*b, (n+1)*b) of X.  For other
shapes the trailing-edge blocks are not zero padded: a remainder of 1
row or column is broadcast-replicated (see the counterexample) and any
other remainder makes the slice assignment fail. -/
theorem break_blocks_exact_multiples (X : ℕ → ℕ → ℚ) (Hd Wd b : ℕ) (hb : 0 < b)
    (hH : b ∣ Hd) (hW : b ∣ Wd) :
    ∃ bl, break_blocks X Hd Wd b = some bl ∧
      (get_mn Hd Wd b).1 = Hd / b ∧ (get_mn Hd Wd b).2 = Wd / b ∧
      ∀ m < Hd / b, ∀ n < Wd / b, ∀ (i j : Fin b),
        bl m n i j = X (m * b + i.1) (n * b + j.1) :=
  break_blocks_dvd_aux X Hd Wd b hb hH hW

/-- C2 amended witness: the exact-multiples decomposition at a concrete
4 by 4 image with block side 2. -/
theorem break_blocks_exact_multiples_witness :
    ∃ bl, break_blocks (fun i j => (i : ℚ) + j) 4 4 2 = some bl ∧
      (get_mn 4 4 2).1 = 4 / 2 ∧ (get_mn 4 4 2).2 = 4 / 2 ∧
      ∀ m < 4 / 2, ∀ n < 4 / 2, ∀ (i j : Fin 2),
        bl m n i j = ((m * 2 + i.1 : ℕ) : ℚ) + ((n * 2 + j.1 : ℕ) : ℚ) :=
  break_blocks_exact_multiples (fun i j => (i : ℚ) + j) 4 4 2 (by decide)
    (by decide) (by decide)

/-- C10: round-trip of the block decomposer: when H = M * b and
W = N * b, joining the blocks of break_blocks back with join_blocks
recovers the original image on its whole domain. -/
theorem join_break_roundtrip (X : ℕ → ℕ → ℚ) (Hd Wd b M N : ℕ) (hb : 0 < b)
    (hH : Hd = M * b) (hW : Wd = N * b) :
    ∃ bl Y, break_blocks X Hd Wd b = some bl ∧
      join_blocks bl M N Hd Wd hb = some Y ∧
      ∀ i < Hd, ∀ j < Wd, Y i j = X i j := by
  subst hH
  subst hW
  obtain ⟨bl, hbrk, hM, hN, hval⟩ :=
    break_blocks_dvd_aux X (M * b) (N * b) b hb ⟨M, Nat.mul_comm M b⟩ ⟨N, Nat.mul_comm N b⟩
  have hdM : M * b / b = M := Nat.mul_div_cancel M hb
  have hdN : N * b / b = N := Nat.mul_div_cancel N hb
  have hmin : ∀ t c, t < c → min b (c * b - t * b) = b := by
    intro t c htc
    have h1 : (t + 1) * b ≤ c * b := Nat.mul_le_mul_right b (by omega)
    have h2 : (t + 1) * b = t * b + b := by ring
    omega
  have hcond : (∀ m < M, min b (M * b - m * b) = b) ∧
      (∀ n < N, min b (N * b - n * b) = b) :=
    ⟨fun m hm => hmin m M hm, fun n hn => hmin n N hn⟩
  refine ⟨bl, fun i j =>
      if i < M * b ∧ j < N * b then
        bl (i / b) (j / b) ⟨i % b, Nat.mod_lt _ hb⟩ ⟨j % b, Nat.mod_lt _ hb⟩
      else 0,
    hbrk, ?_, ?_⟩
  · unfold join_blocks
    rw [if_pos hcond]
  · intro i hi j hj
    simp only []
    rw [if_pos (And.intro hi hj)]
    have hib : i / b < M * b / b := by
      rw [hdM]
      exact (Nat.div_lt_iff_lt_mul hb).mpr hi
    have hjb : j / b < N * b / b := by
      rw [hdN]
      exact (Nat.div_lt_iff_lt_mul hb).mpr hj
    rw [hval (i / b) hib (j / b) hjb]
    have e1 : i / b * b + i % b = i := by
      have h1 := Nat.div_add_mod i b
      have h2 : i / b * b = b * (i / b) := Nat.mul_comm _ _
      omega
    have e2 : j / b * b + j % b = j := by
      have h1 := Nat.div_add_mod j b
      have h2 : j / b * b = b * (j / b) := Nat.mul_comm _ _
      omega
    rw [e1, e2]

/-- C10 witness: the round-trip at a concrete 4 by 2 image with block
side 2. -/
theorem join_break_roundtrip_witness :
    ∃ bl Y, break_blocks (fun i j => (i : ℚ) * 10 + j) 4 2 2 = some bl ∧
      join_blocks bl 2 1 4 2 (by decide) = some Y ∧
      ∀ i < 4, ∀ j < 2, Y i j = (i : ℚ) * 10 + (j : ℚ) :=
  join_break_roundtrip (fun i j => (i : ℚ) * 10 + j) 4 2 2 2 1 (by decide)
    (by decide) (by decide)

/-- Helper: a fold of writes to the fixed position j leaves every other
position unchanged. -/
theorem foldl_update_frame {β : Type} (j : ℕ) (g : (ℕ → ℚ) → β → ℚ) (l : List β)
    (a : ℕ → ℚ) (i : ℕ) (hij : i ≠ j) :
    (l.foldl (fun a2 k => Function.update a2 j (g a2 k)) a) i = a i := by
  induction l generalizing a with
  | nil => rfl
  | cons x xs ih => rw [List.foldl_cons, ih, Function.update_noteq hij]

/-- Helper: one iteration of the fwd loop changes only position j. -/
theorem fwdStep_frame (prol : ℤ → ℚ) (w : ℕ → ℚ) (r : ℕ) (a : ℕ → ℚ) (j i : ℕ)
    (hij : i ≠ j) : fwdStep prol w r a j i = a i := by
  unfold fwdStep
  rw [foldl_update_frame j _ _ _ i hij, Function.update_noteq hij]

/-- Helper: the sequential subtractions of one fwd iteration amount to
scaling by weig[0] and subtracting the weighted feedback sum, whose
sources are the entries before the iteration. -/
theorem fwdStep_value (prol : ℤ → ℚ) (w : ℕ → ℚ) (r : ℕ) (a : ℕ → ℚ) (j : ℕ) :
    fwdStep prol w r a j j = w 0 * a j - ∑ k0 in Finset.range r, w (k0 + 1) *
      (if (j : ℤ) - (k0 + 1) < 0 then prol ((j : ℤ) - (k0 + 1)) else a (j - (k0 + 1))) := by
  unfold fwdStep
  suffices hgen : ∀ t (a0 : ℕ → ℚ), (∀ i, i ≠ j → a0 i = a i) →
      ((List.range t).foldl (fun a2 k0 =>
        Function.update a2 j
          (a2 j - w (k0 + 1) *
            (if (j : ℤ) - (k0 + 1) < 0 then prol ((j : ℤ) - (k0 + 1))
             else a2 (j - (k0 + 1))))) a0) j
        = a0 j - ∑ k0 in Finset.range t, w (k0 + 1) *
            (if (j : ℤ) - (k0 + 1) < 0 then prol ((j : ℤ) - (k0 + 1))
             else a (j - (k0 + 1))) by
    rw [hgen r (Function.update a j (w 0 * a j))
      (fun i hij => Function.update_noteq hij _ _), Function.update_same]
  intro t
  induction t with
  | zero => intro a0 h; simp
  | succ t ih =>
    intro a0 h
    rw [List.range_succ, List.foldl_append, List.foldl_cons, List.foldl_nil,
      Function.update_same, ih a0 h, Finset.sum_range_succ]
    have hsrc : (if (j : ℤ) - (t + 1) < 0 then prol ((j : ℤ) - (t + 1))
        else ((List.range t).foldl (fun a2 k0 =>
          Function.update a2 j
            (a2 j - w (k0 + 1) *
              (if (j : ℤ) - (k0 + 1) < 0 then prol ((j : ℤ) - (k0 + 1))
               else a2 (j - (k0 + 1))))) a0) (j - (t + 1)))
        = (if (j : ℤ) - (t + 1) < 0 then prol ((j : ℤ) - (t + 1)) else a (j - (t + 1))) := by
      split_ifs with hc
      · rfl
      · have hne : j - (t + 1) ≠ j := by omega
        rw [foldl_update_frame j _ _ _ _ hne, h _ hne]
    rw [hsrc]
    ring

/-- Helper: the fwd loop has not yet touched the positions at or beyond
the number of processed iterations. -/
theorem fwdRun_frame (prol : ℤ → ℚ) (bloc : ℕ → ℚ) (w : ℕ → ℚ) (r : ℕ) :
    ∀ t i, t ≤ i → ((List.range t).foldl (fwdStep prol w r) bloc) i = bloc i := by
  intro t
  induction t with
  | zero => intro i _; rfl
  | succ t ih =>
    intro i hi
    rw [List.range_succ, List.foldl_append, List.foldl_cons, List.foldl_nil,
      fwdStep_frame _ _ _ _ _ _ (by omega), ih i (by omega)]

/-- Helper: once the fwd loop has processed position j it never changes
it again. -/
theorem fwdRun_stable (prol : ℤ → ℚ) (bloc : ℕ → ℚ) (w : ℕ → ℚ) (r : ℕ) :
    ∀ t j, j < t → ((List.range t).foldl (fwdStep prol w r) bloc) j
      = ((List.range (j + 1)).foldl (fwdStep prol w r) bloc) j := by
  intro t
  induction t with
  | zero => intro j hj; omega
  | succ t ih =>
    intro j hj
    rcases Nat.lt_or_ge j t with hlt | hge
    · rw [List.range_succ, List.foldl_append, List.foldl_cons, List.foldl_nil,
        fwdStep_frame _ _ _ _ _ _ (by omega), ih j hlt]
    · have hjt : j = t := by omega
      subst hjt
      rfl

/-- C3: the in-place forward row sweep fwd, run over j = 0..q-1 in
increasing order on a prologue of length rr at least r, satisfies at
every position j the recurrence of the claim: the final entry j equals
weig[0] times the original entry minus, for k = 1..r, weig[k] times the
prologue entry prol[j-k] (Python negative indexing) when j-k is
negative, and weig[k] times the final (already updated) entry j-k
otherwise. -/
theorem fwd_inplace_recurrence {rr : ℕ} (prol : Fin rr → ℚ) (bloc : ℕ → ℚ)
    (w : ℕ → ℚ) (r q : ℕ) (hr : r ≤ rr) (j : ℕ) (hj : j < q) :
    fwdRun (pyv prol) bloc w r q j
      = w 0 * bloc j - ∑ k0 in Finset.range r, w (k0 + 1) *
          (if (j : ℤ) - (k0 + 1) < 0 then pyv prol ((j : ℤ) - (k0 + 1))
           else fwdRun (pyv prol) bloc w r q (j - (k0 + 1))) := by
  unfold fwdRun
  rw [fwdRun_stable (pyv prol) bloc w r q j hj, List.range_succ, List.foldl_append,
    List.foldl_cons, List.foldl_nil, fwdStep_value, fwdRun_frame _ _ _ _ j j (le_refl j)]
  congr 1
  apply Finset.sum_congr rfl
  intro k0 hk0
  congr 1
  split_ifs with hc
  · rfl
  · have hne : j - (k0 + 1) < j := by omega
    rw [fwdRun_stable (pyv prol) bloc w r q (j - (k0 + 1)) (by omega),
      fwdRun_stable (pyv prol) bloc w r j (j - (k0 + 1)) hne]

/-- C3 witness: the recurrence instantiated at order r = 1, row length
q = 2, position j = 1, with both hypotheses discharged. -/
theorem fwd_inplace_recurrence_witness :
    fwdRun (pyv (fun _ : Fin 1 => (2 : ℚ))) (fun t => (t : ℚ) + 1) (fun _ => 1) 1 2 1
      = 1 * ((1 : ℚ) + 1) - ∑ k0 in Finset.range 1, (1 : ℚ) *
          (if (1 : ℤ) - (k0 + 1) < 0 then pyv (fun _ : Fin 1 => (2 : ℚ)) ((1 : ℤ) - (k0 + 1))
           else fwdRun (pyv (fun _ : Fin 1 => (2 : ℚ))) (fun t => (t : ℚ) + 1)
             (fun _ => 1) 1 2 (1 - (k0 + 1))) := by
  have h := fwd_inplace_recurrence (fun _ : Fin 1 => (2 : ℚ)) (fun t => (t : ℚ) + 1)
    (fun _ => 1) 1 2 (by decide) 1 (by decide)
  simpa using h

section Stage1Char

variable {r b : ℕ}

/-- The P carry of one block, as written by the stage 1 body: the tail
of the forward column sweep of the block with zero prologue. -/
def stage1Pval (wgt : ℕ → ℚ) (hrb : r ≤ b) (mats : Alg5M b r)
    (B : Matrix (Fin b) (Fin b) ℚ) : Matrix (Fin r) (Fin b) ℚ :=
  T (F mats.Zrb B wgt r) r hrb

/-- The E carry of one block, as written by the stage 1 body. -/
def stage1Eval (wgt : ℕ → ℚ) (hrb : r ≤ b) (mats : Alg5M b r)
    (B : Matrix (Fin b) (Fin b) ℚ) : Matrix (Fin r) (Fin b) ℚ :=
  H (R (F mats.Zrb B wgt r) mats.Zrb wgt r) r hrb

/-- The Pt carry of one block, as written by the stage 1 body. -/
def stage1Ptval (wgt : ℕ → ℚ) (hrb : r ≤ b) (mats : Alg5M b r)
    (B : Matrix (Fin b) (Fin b) ℚ) : Matrix (Fin b) (Fin r) ℚ :=
  TT (FT mats.Zbr (R (F mats.Zrb B wgt r) mats.Zrb wgt r) wgt r) r hrb

/-- The Et carry of one block, as written by the stage 1 body. -/
def stage1Etval (wgt : ℕ → ℚ) (hrb : r ≤ b) (mats : Alg5M b r)
    (B : Matrix (Fin b) (Fin b) ℚ) : Matrix (Fin b) (Fin r) ℚ :=
  HT (RT (FT mats.Zbr (R (F mats.Zrb B wgt r) mats.Zrb wgt r) wgt r) mats.Zbr wgt r) r hrb

/-- Helper: stage 1 never writes the block grid, for any processing
order. -/
theorem stage1_on_blocks (wgt : ℕ → ℚ) (hrb : r ≤ b) (mats : Alg5M b r)
    (l : List (ℕ × ℕ)) (s : Alg5State r b) :
    (alg5_stage1_on wgt hrb mats l s).blocks = s.blocks := by
  unfold alg5_stage1_on
  apply foldl_proj_eq
  intro t x
  rfl

/-- Helper: after stage 1 over any list of block indices, a carry slot
holds the per-block value of its block if the slot was processed, and
its previous content otherwise. -/
theorem stage1_on_char (wgt : ℕ → ℚ) (hrb : r ≤ b) (mats : Alg5M b r)
    (l : List (ℕ × ℕ)) (s : Alg5State r b) (i j : ℕ) :
    ((alg5_stage1_on wgt hrb mats l s).P i j
        = if (i, j) ∈ l then stage1Pval wgt hrb mats (s.blocks i j) else s.P i j) ∧
    ((alg5_stage1_on wgt hrb mats l s).E i j
        = if (i, j) ∈ l then stage1Eval wgt hrb mats (s.blocks i j) else s.E i j) ∧
    ((alg5_stage1_on wgt hrb mats l s).Pt i j
        = if (i, j) ∈ l then stage1Ptval wgt hrb mats (s.blocks i j) else s.Pt i j) ∧
    ((alg5_stage1_on wgt hrb mats l s).Et i j
        = if (i, j) ∈ l then stage1Etval wgt hrb mats (s.blocks i j) else s.Et i j) := by
  induction l generalizing s with
  | nil => simp [alg5_stage1_on]
  | cons mn rest ih =>
    obtain ⟨m, n⟩ := mn
    have hstep : alg5_stage1_on wgt hrb mats ((m, n) :: rest) s
        = alg5_stage1_on wgt hrb mats rest (stage1Body wgt hrb mats s (m, n)) := rfl
    rw [hstep]
    obtain ⟨ihP, ihE, ihPt, ihEt⟩ := ih (stage1Body wgt hrb mats s (m, n))
    have hbl : (stage1Body wgt hrb mats s (m, n)).blocks = s.blocks := rfl
    rw [hbl] at ihP ihE ihPt ihEt
    by_cases hmem : (i, j) ∈ rest
    · rw [ihP, ihE, ihPt, ihEt, if_pos hmem, if_pos hmem, if_pos hmem, if_pos hmem,
        if_pos (List.mem_cons_of_mem _ hmem), if_pos (List.mem_cons_of_mem _ hmem),
        if_pos (List.mem_cons_of_mem _ hmem), if_pos (List.mem_cons_of_mem _ hmem)]
      exact ⟨rfl, rfl, rfl, rfl⟩
    · rw [ihP, ihE, ihPt, ihEt, if_neg hmem, if_neg hmem, if_neg hmem, if_neg hmem]
      by_cases heq : i = m ∧ j = n
      · obtain ⟨hm, hn⟩ := heq
        subst hm
        subst hn
        have hmem2 : (i, j) ∈ (i, j) :: rest := List.mem_cons_self _ _
        rw [if_pos hmem2, if_pos hmem2, if_pos hmem2, if_pos hmem2]
        refine ⟨?_, ?_, ?_, ?_⟩ <;>
          simp [stage1Body, upd2, stage1Pval, stage1Eval, stage1Ptval, stage1Etval]
      · have hmem2 : (i, j) ∉ (m, n) :: rest := by
          intro hc
          rcases List.mem_cons.mp hc with hc1 | hc2
          · exact heq ⟨congrArg Prod.fst hc1, congrArg Prod.snd hc1⟩
          · exact hmem hc2
        rw [if_neg hmem2, if_neg hmem2, if_neg hmem2, if_neg hmem2]
        refine ⟨?_, ?_, ?_, ?_⟩ <;>
          simp [stage1Body, upd2, heq]

/-- Helper: membership in a fold of appended blocks. -/
theorem foldl_append_mem {α β : Type} (blockf : β → List α) (l : List β)
    (acc : List α) (p : α) :
    p ∈ l.foldl (fun a x => a ++ blockf x) acc ↔ p ∈ acc ∨ ∃ x ∈ l, p ∈ blockf x := by
  induction l generalizing acc with
  | nil => simp
  | cons x xs ih => simp [ih, List.mem_append, or_assoc]

/-- Helper: the canonical stage 1 order enumerates exactly the block
indices of the M by N grid. -/
theorem mem_canonOrder (M N : ℕ) (p : ℕ × ℕ) :
    p ∈ canonOrder M N ↔ p.1 < M ∧ p.2 < N := by
  unfold canonOrder
  rw [foldl_append_mem]
  constructor
  · rintro (hc | ⟨n, hn, hp⟩)
    · simp at hc
    · simp only [List.mem_map, List.mem_range] at hp hn
      obtain ⟨m, hm, rfl⟩ := hp
      exact ⟨hm, hn⟩
  · rintro ⟨h1, h2⟩
    refine Or.inr ⟨p.2, by simpa using h2, ?_⟩
    simp only [List.mem_map, List.mem_range]
    exact ⟨p.1, h1, rfl⟩

end Stage1Char

/-- C6: stage 1 is block-independent: every carry written for block
(m, n) is a function of blocks[m][n] and the weights alone, so running
alg5_stage1 over any permutation of the canonical index order (any
partition, any interleaving) produces exactly the carries of the source
order, and each processed slot holds its per-block value. -/
theorem stage1_block_independent {r b : ℕ} (M N : ℕ) (wgt : ℕ → ℚ) (hrb : r ≤ b)
    (mats : Alg5M b r) (l : List (ℕ × ℕ)) (s : Alg5State r b)
    (hp : l.Perm (canonOrder M N)) :
    alg5_stage1_on wgt hrb mats l s = alg5_stage1 M N wgt hrb mats s ∧
    ∀ m n, m < M → n < N →
      ((alg5_stage1 M N wgt hrb mats s).P m n = stage1Pval wgt hrb mats (s.blocks m n) ∧
       (alg5_stage1 M N wgt hrb mats s).E m n = stage1Eval wgt hrb mats (s.blocks m n) ∧
       (alg5_stage1 M N wgt hrb mats s).Pt m n = stage1Ptval wgt hrb mats (s.blocks m n) ∧
       (alg5_stage1 M N wgt hrb mats s).Et m n = stage1Etval wgt hrb mats (s.blocks m n)) := by
  unfold alg5_stage1
  constructor
  · apply Alg5State.ext
    · rw [stage1_on_blocks, stage1_on_blocks]
    · funext i j
      rw [(stage1_on_char wgt hrb mats l s i j).1,
        (stage1_on_char wgt hrb mats (canonOrder M N) s i j).1]
      exact if_congr (hp.mem_iff) rfl rfl
    · funext i j
      rw [(stage1_on_char wgt hrb mats l s i j).2.1,
        (stage1_on_char wgt hrb mats (canonOrder M N) s i j).2.1]
      exact if_congr (hp.mem_iff) rfl rfl
    · funext i j
      rw [(stage1_on_char wgt hrb mats l s i j).2.2.1,
        (stage1_on_char wgt hrb mats (canonOrder M N) s i j).2.2.1]
      exact if_congr (hp.mem_iff) rfl rfl
    · funext i j
      rw [(stage1_on_char wgt hrb mats l s i j).2.2.2,
        (stage1_on_char wgt hrb mats (canonOrder M N) s i j).2.2.2]
      exact if_congr (hp.mem_iff) rfl rfl
  · intro m n hm hn
    have hmem : (m, n) ∈ canonOrder M N := (mem_canonOrder M N (m, n)).mpr ⟨hm, hn⟩
    refine ⟨?_, ?_, ?_, ?_⟩
    · rw [(stage1_on_char wgt hrb mats (canonOrder M N) s m n).1, if_pos hmem]
    · rw [(stage1_on_char wgt hrb mats (canonOrder M N) s m n).2.1, if_pos hmem]
    · rw [(stage1_on_char wgt hrb mats (canonOrder M N) s m n).2.2.1, if_pos hmem]
    · rw [(stage1_on_char wgt hrb mats (canonOrder M N) s m n).2.2.2, if_pos hmem]

/-- C6 witness: processing the two blocks of a 2 by 1 grid in reversed
order yields the same carries as the source order, at a concrete state
with weights (1, 1). -/
theorem stage1_block_independent_witness :
    (alg5_stage1_on (fun _ => 1) (by decide)
        (build_alg5_matrices 2 1 2 2 (fun _ => 1) (by decide) (by decide) (by decide))
        [(1, 0), (0, 0)] (build_alg5_carries (fun _ _ => 1)) =
      alg5_stage1 2 1 (fun _ => 1) (by decide)
        (build_alg5_matrices 2 1 2 2 (fun _ => 1) (by decide) (by decide) (by decide))
        (build_alg5_carries (fun _ _ => 1)) ∧
      ∀ m n, m < 2 → n < 1 →
        ((alg5_stage1 2 1 (fun _ => 1) (by decide)
            (build_alg5_matrices 2 1 2 2 (fun _ => 1) (by decide) (by decide) (by decide))
            (build_alg5_carries (fun _ _ => 1))).P m n =
          stage1Pval (fun _ => 1) (by decide)
            (build_alg5_matrices 2 1 2 2 (fun _ => 1) (by decide) (by decide) (by decide))
            ((build_alg5_carries (r := 1)
              (fun (_ _ : ℕ) => (1 : Matrix (Fin 2) (Fin 2) ℚ))).blocks m n) ∧
         (alg5_stage1 2 1 (fun _ => 1) (by decide)
            (build_alg5_matrices 2 1 2 2 (fun _ => 1) (by decide) (by decide) (by decide))
            (build_alg5_carries (fun _ _ => 1))).E m n =
          stage1Eval (fun _ => 1) (by decide)
            (build_alg5_matrices 2 1 2 2 (fun _ => 1) (by decide) (by decide) (by decide))
            ((build_alg5_carries (r := 1)
              (fun (_ _ : ℕ) => (1 : Matrix (Fin 2) (Fin 2) ℚ))).blocks m n) ∧
         (alg5_stage1 2 1 (fun _ => 1) (by decide)
            (build_alg5_matrices 2 1 2 2 (fun _ => 1) (by decide) (by decide) (by decide))
            (build_alg5_carries (fun _ _ => 1))).Pt m n =
          stage1Ptval (fun _ => 1) (by decide)
            (build_alg5_matrices 2 1 2 2 (fun _ => 1) (by decide) (by decide) (by decide))
            ((build_alg5_carries (r := 1)
              (fun (_ _ : ℕ) => (1 : Matrix (Fin 2) (Fin 2) ℚ))).blocks m n) ∧
         (alg5_stage1 2 1 (fun _ => 1) (by decide)
            (build_alg5_matrices 2 1 2 2 (fun _ => 1) (by decide) (by decide) (by decide))
            (build_alg5_carries (fun _ _ => 1))).Et m n =
          stage1Etval (fun _ => 1) (by decide)
            (build_alg5_matrices 2 1 2 2 (fun _ => 1) (by decide) (by decide) (by decide))
            ((build_alg5_carries (r := 1)
              (fun (_ _ : ℕ) => (1 : Matrix (Fin 2) (Fin 2) ℚ))).blocks m n))) :=
  stage1_block_independent 2 1 (fun _ => 1) (by decide)
    (build_alg5_matrices 2 1 2 2 (fun _ => 1) (by decide) (by decide) (by decide))
    [(1, 0), (0, 0)] (build_alg5_carries (fun _ _ => 1)) (by decide)

section SweepChar

variable {r b : ℕ}

/-- The resolved forward carry values of one column: v 0 = P1 0 + A *
bnd and v (m+1) = P1 (m+1) + A * v m, where bnd is the content of the
boundary slot when the sweep starts. -/
def sweepVal (A : Matrix (Fin r) (Fin r) ℚ) (Pcol : ℕ → Matrix (Fin r) (Fin b) ℚ)
    (bnd : Matrix (Fin r) (Fin b) ℚ) : ℕ → Matrix (Fin r) (Fin b) ℚ
  | 0 => Pcol 0 + A * bnd
  | m + 1 => Pcol (m + 1) + A * sweepVal A Pcol bnd m

/-- Helper: the Python index m-1 on the P axis of M+1 slots: slot M for
m = 0 (wraparound) and slot m-1 otherwise. -/
theorem pyIdx_sub_one (M m : ℕ) :
    pyIdx (M + 1) ((m : ℤ) - 1) = if m = 0 then M else m - 1 := by
  unfold pyIdx
  split_ifs <;> omega

/-- Helper: one eqn. (24) update touches no other P slot. -/
theorem colPstep_P_frame (M n : ℕ) (A : Matrix (Fin r) (Fin r) ℚ)
    (s : Alg5State r b) (m i j : ℕ) (h : ¬(i = m ∧ j = n)) :
    (colPstep M n A s m).P i j = s.P i j := by
  unfold colPstep upd2
  simp only []
  rw [if_neg h]

/-- Helper: the slot written by one eqn. (24) update. -/
theorem colPstep_P_self (M n : ℕ) (A : Matrix (Fin r) (Fin r) ℚ)
    (s : Alg5State r b) (m : ℕ) :
    (colPstep M n A s m).P m n = s.P m n + A * s.P (pyIdx (M + 1) ((m : ℤ) - 1)) n := by
  simp [colPstep, upd2]

/-- Helper: a partial P sweep leaves other columns and the not yet
processed slots (including the boundary slot M) unchanged. -/
theorem colPsweepAux_P_frame (M n : ℕ) (A : Matrix (Fin r) (Fin r) ℚ) :
    ∀ (t : ℕ) (s : Alg5State r b) (i j : ℕ), j ≠ n ∨ t ≤ i →
      (((List.range t).foldl (colPstep M n A) s)).P i j = s.P i j := by
  intro t
  induction t with
  | zero => intro s i j _; rfl
  | succ t ih =>
    intro s i j h
    rw [List.range_succ, List.foldl_append, List.foldl_cons, List.foldl_nil]
    rw [colPstep_P_frame]
    · exact ih s i j (by omega)
    · rcases h with h1 | h2
      · intro hc; exact h1 hc.2
      · intro hc; omega

/-- Helper: a partial P sweep resolves each processed slot to the
sweepVal recurrence over the pre-sweep column and boundary. -/
theorem colPsweepAux_P_value (M n : ℕ) (A : Matrix (Fin r) (Fin r) ℚ)
    (s : Alg5State r b) :
    ∀ (t : ℕ), t ≤ M → ∀ m, m < t →
      (((List.range t).foldl (colPstep M n A) s)).P m n
        = sweepVal A (fun k => s.P k n) (s.P M n) m := by
  intro t
  induction t with
  | zero => intro _ m hm; omega
  | succ t ih =>
    intro ht m hm
    rw [List.range_succ, List.foldl_append, List.foldl_cons, List.foldl_nil]
    rcases Nat.lt_or_ge m t with hlt | hge
    · rw [colPstep_P_frame _ _ _ _ _ _ _ (by omega), ih (by omega) m hlt]
    · have hmt : m = t := by omega
      rw [hmt]
      rw [colPstep_P_self, pyIdx_sub_one,
        colPsweepAux_P_frame M n A t s t n (Or.inr (by omega))]
      rcases Nat.eq_zero_or_pos t with rfl | hpos
      · rw [if_pos rfl]
        have h3 : ((List.range 0).foldl (colPstep M n A) s).P M n = s.P M n := rfl
        rw [h3]
        rfl
      · rw [if_neg (by omega)]
        obtain ⟨m0, rfl⟩ : ∃ m0, t = m0 + 1 := ⟨t - 1, by omega⟩
        have h4 : m0 + 1 - 1 = m0 := rfl
        rw [h4, ih (by omega) m0 (by omega)]
        rfl

/-- Helper: the full P sweep of one column resolves each slot m < M. -/
theorem colPsweep_P_value (M n : ℕ) (A : Matrix (Fin r) (Fin r) ℚ)
    (s : Alg5State r b) (m : ℕ) (hm : m < M) :
    (colPsweep M n A s).P m n = sweepVal A (fun k => s.P k n) (s.P M n) m :=
  colPsweepAux_P_value M n A s M (le_refl M) m hm

/-- Helper: the full P sweep of one column leaves other columns and the
boundary slot unchanged. -/
theorem colPsweep_P_frame2 (M n : ℕ) (A : Matrix (Fin r) (Fin r) ℚ)
    (s : Alg5State r b) (i j : ℕ) (h : j ≠ n ∨ M ≤ i) :
    (colPsweep M n A s).P i j = s.P i j :=
  colPsweepAux_P_frame M n A M s i j h

/-- Helper: a sweep from a zero boundary resolves to the power sum of
the column values. -/
theorem sweepVal_sum (A : Matrix (Fin r) (Fin r) ℚ) (Pcol : ℕ → Matrix (Fin r) (Fin b) ℚ) :
    ∀ m, sweepVal A Pcol 0 m = ∑ k in Finset.range (m + 1), A ^ (m - k) * Pcol k := by
  intro m
  induction m with
  | zero =>
    unfold sweepVal
    simp
  | succ m ih =>
    unfold sweepVal
    rw [ih, Matrix.mul_sum]
    conv_rhs => rw [Finset.sum_range_succ]
    rw [Nat.sub_self, pow_zero, Matrix.one_mul, add_comm]
    congr 1
    apply Finset.sum_congr rfl
    intro k hk
    rw [Finset.mem_range] at hk
    rw [← Matrix.mul_assoc, ← pow_succ']
    congr 2
    omega

/-- Helper: the stage 23 per-column passes touch the P slots of their
own column only. -/
theorem stage23cols_P_frame (M : ℕ) (mats : Alg5M b r) :
    ∀ (cols : List ℕ) (s : Alg5State r b) (i j : ℕ), j ∉ cols →
      ((cols.foldl (fun s c =>
        colEsweep M c mats.HARB_AFP mats.AbR (colPsweep M c mats.AbF s)) s)).P i j
        = s.P i j := by
  intro cols
  induction cols with
  | nil => intro s i j _; rfl
  | cons c cs ih =>
    intro s i j hj
    rw [List.foldl_cons, ih _ i j (fun hc => hj (List.mem_cons_of_mem _ hc)),
      colEsweep_P, colPsweep_P_frame2]
    exact Or.inl (fun hc => hj (hc ▸ List.mem_cons_self c cs))

/-- Helper: after the whole of alg5_stage23, the P slot (m, n) holds the
sweepVal recurrence over the incoming column n and its boundary slot. -/
theorem alg5_stage23_P_char (M N : ℕ) (mats : Alg5M b r) (s : Alg5State r b)
    (m n : ℕ) (hm : m < M) (hn : n < N) :
    (alg5_stage23 M N mats s).P m n
      = sweepVal mats.AbF (fun k => s.P k n) (s.P M n) m := by
  unfold alg5_stage23
  have hsplit : List.range N
      = List.range (n + 1) ++ (List.range (N - (n + 1))).map ((n + 1) + ·) := by
    rw [← List.range_add]
    congr 1
    omega
  rw [hsplit, List.foldl_append, stage23cols_P_frame M mats _ _ m n
    (by
      intro hc
      obtain ⟨x, hx, hxe⟩ := List.mem_map.mp hc
      omega),
    List.range_succ, List.foldl_append, List.foldl_cons, List.foldl_nil, colEsweep_P,
    colPsweep_P_value M n mats.AbF _ m hm]
  have hs : ∀ k, ((List.range n).foldl
      (fun s c => colEsweep M c mats.HARB_AFP mats.AbR (colPsweep M c mats.AbF s)) s).P k n
      = s.P k n := by
    intro k
    apply stage23cols_P_frame
    simp [List.mem_range]
  rw [show (fun k => ((List.range n).foldl
      (fun s c => colEsweep M c mats.HARB_AFP mats.AbR (colPsweep M c mats.AbF s)) s).P k n)
      = (fun k => s.P k n) from funext hs, hs M]

end SweepChar

/-- C1: for the zero-padding policy, with carries zero-initialized by
build_alg5_carries (so the boundary slot P[-1][n], stored at row M,
stays zero through stage 1), after alg5_stage23 the resolved forward
carry of every column n and row m is the power sum
P[m][n] = sum over k = 0..m of AbF^(m-k) times the stage 1 value
P1[k][n]. -/
theorem stage2_resolved_carry_sum {r b : ℕ} (M N : ℕ) (wgt : ℕ → ℚ) (hrb : r ≤ b)
    (mats : Alg5M b r) (blocks : ℕ → ℕ → Matrix (Fin b) (Fin b) ℚ)
    (m n : ℕ) (hm : m < M) (hn : n < N) :
    (alg5_stage23 M N mats
        (alg5_stage1 M N wgt hrb mats (build_alg5_carries blocks))).P m n
      = ∑ k in Finset.range (m + 1), mats.AbF ^ (m - k)
          * (alg5_stage1 M N wgt hrb mats (build_alg5_carries blocks)).P k n := by
  rw [alg5_stage23_P_char M N mats _ m n hm hn]
  have hbnd : (alg5_stage1 M N wgt hrb mats (build_alg5_carries blocks)).P M n = 0 := by
    have h := (stage1_on_char wgt hrb mats (canonOrder M N)
      (build_alg5_carries blocks) M n).1
    unfold alg5_stage1
    rw [h, if_neg]
    · rfl
    · intro hc
      rw [mem_canonOrder] at hc
      omega
  rw [hbnd, sweepVal_sum]

/-- C1 witness: the boundary-slot power sum at a concrete 2 by 1 grid
of 2 by 2 blocks with weights (1, 1), at m = 1, n = 0. -/
theorem stage2_resolved_carry_sum_witness :
    (alg5_stage23 2 1
        (build_alg5_matrices 2 1 2 2 (fun _ => 1) (by decide) (by decide) (by decide))
        (alg5_stage1 2 1 (fun _ => 1) (by decide)
          (build_alg5_matrices 2 1 2 2 (fun _ => 1) (by decide) (by decide) (by decide))
          (build_alg5_carries (fun _ _ => 1)))).P 1 0
      = ∑ k in Finset.range (1 + 1),
          (build_alg5_matrices 2 1 2 2 (fun _ => 1)
            (by decide) (by decide) (by decide)).AbF ^ (1 - k)
          * (alg5_stage1 2 1 (fun _ => 1) (by decide)
              (build_alg5_matrices 2 1 2 2 (fun _ => 1) (by decide) (by decide) (by decide))
              (build_alg5_carries (fun _ _ => 1))).P k 0 :=
  stage2_resolved_carry_sum 2 1 (fun _ => 1) (by decide)
    (build_alg5_matrices 2 1 2 2 (fun _ => 1) (by decide) (by decide) (by decide))
    (fun _ _ => 1) 1 0 (by decide) (by decide)

section PeChar

variable {r b : ℕ}

/-- The values of the PE accumulator loop: a 0 = init and
a (t+1) = Pcol t + A * a t. -/
def accVal (A : Matrix (Fin r) (Fin r) ℚ) (Pcol : ℕ → Matrix (Fin r) (Fin b) ℚ)
    (init : Matrix (Fin r) (Fin b) ℚ) : ℕ → Matrix (Fin r) (Fin b) ℚ
  | 0 => init
  | t + 1 => Pcol t + A * accVal A Pcol init t

/-- Helper: the accumulator fold equals the accVal recurrence. -/
theorem accVal_foldl (A : Matrix (Fin r) (Fin r) ℚ)
    (Pcol : ℕ → Matrix (Fin r) (Fin b) ℚ) (init : Matrix (Fin r) (Fin b) ℚ) :
    ∀ t, (List.range t).foldl (fun acc m => Pcol m + A * acc) init
      = accVal A Pcol init t := by
  intro t
  induction t with
  | zero => rfl
  | succ t ih =>
    rw [List.range_succ, List.foldl_append, List.foldl_cons, List.foldl_nil, ih]
    rfl

/-- Helper: accVal reads only the first t column values. -/
theorem accVal_congr (A : Matrix (Fin r) (Fin r) ℚ)
    (P1 P2 : ℕ → Matrix (Fin r) (Fin b) ℚ) (init : Matrix (Fin r) (Fin b) ℚ) :
    ∀ t, (∀ k < t, P1 k = P2 k) → accVal A P1 init t = accVal A P2 init t := by
  intro t
  induction t with
  | zero => intro _; rfl
  | succ t ih =>
    intro h
    unfold accVal
    rw [ih (fun k hk => h k (by omega)), h t (by omega)]

/-- Helper: sweepVal reads only the column values up to its index. -/
theorem sweepVal_congr (A : Matrix (Fin r) (Fin r) ℚ)
    (P1 P2 : ℕ → Matrix (Fin r) (Fin b) ℚ) (bnd : Matrix (Fin r) (Fin b) ℚ) :
    ∀ m, (∀ k ≤ m, P1 k = P2 k) → sweepVal A P1 bnd m = sweepVal A P2 bnd m := by
  intro m
  induction m with
  | zero => intro h; unfold sweepVal; rw [h 0 (by omega)]
  | succ m ih =>
    intro h
    unfold sweepVal
    rw [ih (fun k hk => h k (by omega)), h (m + 1) (by omega)]

/-- Helper: the Python index -1 resolves to the last storage slot. -/
theorem pyIdx_neg_one (M : ℕ) : pyIdx (M + 1) (-1) = M := by
  unfold pyIdx
  norm_num

/-- Helper: minv is a right inverse on a nonsingular matrix. -/
theorem minv_mul_self {k : ℕ} (A : Matrix (Fin k) (Fin k) ℚ) (h : A.det ≠ 0) :
    A * minv A = 1 := by
  unfold minv
  rw [Matrix.mul_smul, Matrix.mul_adjugate, smul_smul, inv_mul_cancel₀ h, one_smul]

/-- Helper: minv is a left inverse on a nonsingular matrix. -/
theorem minv_self_mul {k : ℕ} (A : Matrix (Fin k) (Fin k) ℚ) (h : A.det ≠ 0) :
    minv A * A = 1 := by
  unfold minv
  rw [Matrix.smul_mul, Matrix.adjugate_mul, smul_smul, inv_mul_cancel₀ h, one_smul]

/-- Helper: the PE column body touches no other P column. -/
theorem peColBody_P_frame (M : ℕ) (mats : Alg5M b r) (pem : PePack r)
    (s : Alg5State r b) (n i j : ℕ) (hj : j ≠ n) :
    (peColBody M mats pem s n).P i j = s.P i j := by
  unfold peColBody
  simp only []
  rw [colEsweep_P, colPsweep_P_frame2 _ _ _ _ _ _ (Or.inl hj)]
  unfold upd2
  simp only []
  rw [if_neg (fun hc => hj hc.2)]

/-- Helper: the PE column body writes the boundary slot P[-1][n]
(storage row M) with IAhF times the accumulated PM1Y pass. -/
theorem peColBody_P_boundary (M : ℕ) (mats : Alg5M b r) (pem : PePack r)
    (s : Alg5State r b) (n : ℕ) :
    (peColBody M mats pem s n).P M n
      = pem.IAhF * accVal mats.AbF (fun k => s.P k n) mats.Zrb M := by
  unfold peColBody
  simp only []
  rw [colEsweep_P, colPsweep_P_frame2 _ _ _ _ _ _ (Or.inr (le_refl M))]
  simp [upd2, pyIdx_neg_one, accVal_foldl]

/-- Helper: a P sweep over a column whose incoming values and boundary
are known resolves to the sweepVal recurrence. -/
theorem colPsweep_P_value_of (M n : ℕ) (A : Matrix (Fin r) (Fin r) ℚ)
    (s1 : Alg5State r b) (Pcol : ℕ → Matrix (Fin r) (Fin b) ℚ)
    (bnd : Matrix (Fin r) (Fin b) ℚ)
    (hcol : ∀ k < M, s1.P k n = Pcol k) (hbnd : s1.P M n = bnd)
    (m : ℕ) (hm : m < M) :
    (colPsweep M n A s1).P m n = sweepVal A Pcol bnd m := by
  rw [colPsweep_P_value M n A s1 m hm, hbnd]
  exact sweepVal_congr A _ _ _ m (fun k hk => hcol k (by omega))

/-- Helper: inside the PE column body, the repeated standard P sweep
resolves from the boundary just written. -/
theorem peColBody_P_value (M : ℕ) (mats : Alg5M b r) (pem : PePack r)
    (s : Alg5State r b) (n m : ℕ) (hm : m < M) :
    (peColBody M mats pem s n).P m n
      = sweepVal mats.AbF (fun k => s.P k n)
          (pem.IAhF * accVal mats.AbF (fun k => s.P k n) mats.Zrb M) m := by
  unfold peColBody
  simp only []
  rw [colEsweep_P]
  apply colPsweep_P_value_of _ _ _ _ _ _ _ _ m hm
  · intro k hk
    simp only [upd2, pyIdx_neg_one]
    rw [if_neg]
    intro hc
    omega
  · simp [upd2, pyIdx_neg_one, accVal_foldl]

/-- Helper: the PE per-column bodies touch the P slots of their own
column only. -/
theorem peCols_P_frame (M : ℕ) (mats : Alg5M b r) (pem : PePack r) :
    ∀ (cols : List ℕ) (s : Alg5State r b) (i j : ℕ), j ∉ cols →
      ((cols.foldl (peColBody M mats pem) s)).P i j = s.P i j := by
  intro cols
  induction cols with
  | nil => intro s i j _; rfl
  | cons c cs ih =>
    intro s i j hj
    rw [List.foldl_cons, ih _ i j (fun hc => hj (List.mem_cons_of_mem _ hc)),
      peColBody_P_frame]
    intro hc
    exact hj (hc ▸ List.mem_cons_self c cs)

/-- Helper: the P slots of every column after the whole of
alg5_pe_stage23, in terms of the incoming carries. -/
theorem alg5_pe_stage23_P_char (M N : ℕ) (mats : Alg5M b r) (pem : PePack r)
    (s : Alg5State r b) (n : ℕ) (hn : n < N) :
    ((alg5_pe_stage23 M N mats pem s).P M n
      = pem.IAhF * accVal mats.AbF (fun k => s.P k n) mats.Zrb M) ∧
    ∀ m < M, (alg5_pe_stage23 M N mats pem s).P m n
      = sweepVal mats.AbF (fun k => s.P k n)
          (pem.IAhF * accVal mats.AbF (fun k => s.P k n) mats.Zrb M) m := by
  unfold alg5_pe_stage23
  have hsplit : List.range N
      = List.range (n + 1) ++ (List.range (N - (n + 1))).map ((n + 1) + ·) := by
    rw [← List.range_add]
    congr 1
    omega
  have hnot : n ∉ (List.range (N - (n + 1))).map ((n + 1) + ·) := by
    intro hc
    obtain ⟨x, hx, hxe⟩ := List.mem_map.mp hc
    omega
  have hs : ∀ k, ((List.range n).foldl (peColBody M mats pem) s).P k n = s.P k n := by
    intro k
    apply peCols_P_frame
    simp [List.mem_range]
  have hfun : (fun k => ((List.range n).foldl (peColBody M mats pem) s).P k n)
      = (fun k => s.P k n) := funext hs
  rw [hsplit, List.foldl_append]
  constructor
  · rw [peCols_P_frame M mats pem _ _ M n hnot,
      List.range_succ, List.foldl_append, List.foldl_cons, List.foldl_nil,
      peColBody_P_boundary, hfun]
  · intro m hm
    rw [peCols_P_frame M mats pem _ _ m n hnot,
      List.range_succ, List.foldl_append, List.foldl_cons, List.foldl_nil,
      peColBody_P_value _ _ _ _ _ _ hm, hfun]

end PeChar

/-- C7: under the PE policy, when build_pe_matrices succeeds on a pack
with Ir the identity and Zrb the zero block, IAhF is the pre-transposed
inverse transpose((I - AhF)^(-1)) (stated as minv with its two-sided
inverse equations), and alg5_pe_stage23 gives, for every column n, the
boundary slot P[-1][n] (storage row M) the value IAhF times the
accumulator PM1Y built by the zero-initialized first pass
PM1Y = P[m][n] + AbF . PM1Y over m = 0..M-1, and then resolves every
P[m][n] by the standard sweep P[m][n] += AbF . P[m-1][n] from that
boundary. -/
theorem pe_stage23_P_spec {r b : ℕ} (M N : ℕ) (wgt : ℕ → ℚ) (mats : Alg5M b r)
    (pem : PePack r) (s : Alg5State r b)
    (hbuild : build_pe_matrices wgt mats = Except.ok pem)
    (hIr : mats.Ir = 1) (hZrb : mats.Zrb = 0) (n : ℕ) (hn : n < N) :
    pem.IAhF = (minv (1 - mats.AhF)).transpose ∧
    (1 - mats.AhF) * minv (1 - mats.AhF) = 1 ∧
    minv (1 - mats.AhF) * (1 - mats.AhF) = 1 ∧
    (alg5_pe_stage23 M N mats pem s).P M n
      = pem.IAhF * accVal mats.AbF (fun k => s.P k n) 0 M ∧
    ∀ m < M, (alg5_pe_stage23 M N mats pem s).P m n
      = sweepVal mats.AbF (fun k => s.P k n)
          (pem.IAhF * accVal mats.AbF (fun k => s.P k n) 0 M) m := by
  unfold build_pe_matrices npinv at hbuild
  by_cases h1 : (mats.Ir - mats.AwF).det = 0
  · rw [if_pos h1] at hbuild
    exact Except.noConfusion hbuild
  rw [if_neg h1] at hbuild
  simp only [Except.bind] at hbuild
  by_cases h2 : (mats.Ir - mats.AwR).det = 0
  · rw [if_pos h2] at hbuild
    exact Except.noConfusion hbuild
  rw [if_neg h2] at hbuild
  simp only [Except.bind] at hbuild
  by_cases h3 : (mats.Ir - mats.AhF).det = 0
  · rw [if_pos h3] at hbuild
    exact Except.noConfusion hbuild
  rw [if_neg h3] at hbuild
  simp only [Except.bind] at hbuild
  by_cases h4 : (mats.Ir - mats.AhR).det = 0
  · rw [if_pos h4] at hbuild
    exact Except.noConfusion hbuild
  rw [if_neg h4] at hbuild
  simp only [Except.bind] at hbuild
  rw [Except.ok.injEq] at hbuild
  subst hbuild
  rw [hIr] at h3
  have hchar := alg5_pe_stage23_P_char M N mats
    { IAhF := (minv (mats.Ir - mats.AhF)).transpose,
      IAhR := (minv (mats.Ir - mats.AhR)).transpose,
      IAwF := minv (mats.Ir - mats.AwF), IAwR := minv (mats.Ir - mats.AwR) } s n hn
  rw [hZrb] at hchar
  refine ⟨by rw [hIr], minv_mul_self _ h3, minv_self_mul _ h3, hchar.1, hchar.2⟩

/-- Concrete pack for the C7 witness: the build at b = 2, r = 1 with all
weights zero, for which every image-size response matrix is zero. -/
def pewMats : Alg5M 2 1 :=
  build_alg5_matrices 2 1 2 2 (fun _ => 0) (by decide) (by decide) (by decide)

/-- Concrete PE pack for the C7 witness: all four inverses are the 1 by
1 identity. -/
def pewPack : PePack 1 := { IAhF := 1, IAhR := 1, IAwF := 1, IAwR := 1 }

/-- Concrete carry state for the C7 witness. -/
def pewState : Alg5State 1 2 := build_alg5_carries (fun _ _ => 1)

/-- Helper: with all-zero weights the PE builder succeeds and returns
the identity pack. -/
theorem build_pe_matrices_zero :
    build_pe_matrices (fun _ => 0) pewMats = Except.ok pewPack := by
  have hAwF : pewMats.AwF = 0 := by
    ext i j
    fin_cases i
    fin_cases j
    simp [pewMats, build_alg5_matrices, T, F, FT, fwdRun, fwdStep, List.range_succ,
      rowf, pyv, Matrix.submatrix_apply, Matrix.transpose_apply, Function.update_apply]
  have hAwR : pewMats.AwR = 0 := by
    ext i j
    fin_cases i
    fin_cases j
    simp [pewMats, build_alg5_matrices, H, R, RT, revRun, revStep, List.range_succ,
      rowf, pyv, Matrix.submatrix_apply, Matrix.transpose_apply, Function.update_apply]
  have hAhF : pewMats.AhF = 0 := by
    ext i j
    fin_cases i
    fin_cases j
    simp [pewMats, build_alg5_matrices, TT, FT, fwdRun, fwdStep, List.range_succ,
      rowf, pyv, Matrix.submatrix_apply, Matrix.transpose_apply, Function.update_apply]
  have hAhR : pewMats.AhR = 0 := by
    ext i j
    fin_cases i
    fin_cases j
    simp [pewMats, build_alg5_matrices, HT, RT, revRun, revStep, List.range_succ,
      rowf, pyv, Matrix.submatrix_apply, Matrix.transpose_apply, Function.update_apply]
  have hIr : pewMats.Ir = 1 := rfl
  rw [build_pe_matrices, hAwF, hAwR, hAhF, hAhR, hIr]
  norm_num [npinv, minv, Matrix.det_fin_one, Matrix.adjugate_fin_one, Except.bind,
    pewPack]

/-- C7 witness: the PE stage-23 characterization at the concrete
zero-weight pack, 1 by 1 grid, column 0. -/
theorem pe_stage23_P_spec_witness :
    pewPack.IAhF = (minv (1 - pewMats.AhF)).transpose ∧
    (1 - pewMats.AhF) * minv (1 - pewMats.AhF) = 1 ∧
    minv (1 - pewMats.AhF) * (1 - pewMats.AhF) = 1 ∧
    (alg5_pe_stage23 1 1 pewMats pewPack pewState).P 1 0
      = pewPack.IAhF * accVal pewMats.AbF (fun k => pewState.P k 0) 0 1 ∧
    ∀ m < 1, (alg5_pe_stage23 1 1 pewMats pewPack pewState).P m 0
      = sweepVal pewMats.AbF (fun k => pewState.P k 0)
          (pewPack.IAhF * accVal pewMats.AbF (fun k => pewState.P k 0) 0 1) m :=
  pe_stage23_P_spec 1 1 (fun _ => 0) pewMats pewPack pewState
    build_pe_matrices_zero rfl rfl 0 (by decide)

/-- Concrete pack for the C8 counterexample: w = (1, 1), b = 2, r = 1.
There ArF = ArR = [[-1]], so the r² system sysA of build_cpe_matrices is
the 1 by 1 zero matrix, while I - ArF and I - ArR are both [[2]] and
invertible. -/
def cluMats : Alg5M 2 1 :=
  build_alg5_matrices 2 1 2 2 (fun _ => 1) (by decide) (by decide) (by decide)

/-- Helper: at w = (1, 1), r = 1 the first row of the prologue response
is -wgt[1] = -1, so ArF = [[-1]]. -/
theorem cluMats_ArF : cluMats.ArF = Matrix.of fun _ _ => -1 := by
  ext i j
  fin_cases i
  fin_cases j
  simp [cluMats, build_alg5_matrices, H, F, FT, fwdRun, fwdStep, List.range_succ,
    rowf, pyv, Matrix.submatrix_apply, Matrix.transpose_apply, Function.update_apply]
  norm_num [Matrix.one_apply]

/-- Helper: ArR is the two-axis flip of ArF, which for a 1 by 1 matrix
is ArF itself. -/
theorem cluMats_ArR : cluMats.ArR = Matrix.of fun _ _ => -1 := by
  have h : cluMats.ArR = flip cluMats.ArF := rfl
  rw [h, cluMats_ArF]
  ext i j
  fin_cases i
  fin_cases j
  simp [flip]

/-- C8 counterexample: with w = (1, 1), b = 2, r = 1 the r² system sysA
of build_cpe_matrices is singular, yet the builder does not fail: scipy
lu_factor and lu_solve raise no exception on a singular system (they
only warn and return non-finite values), so the claimed
IllConditionedWeights failure on a singular required solve never
happens there. -/
theorem cpe_lu_singular_no_error :
    (sysAOf Nat.one_pos cluMats.ArR cluMats.ArF).det = 0 ∧
    build_cpe_matrices Nat.one_pos (fun _ => 1) cluMats
      ≠ Except.error FilterError.IllConditionedWeights := by
  constructor
  · have h : (sysAOf Nat.one_pos cluMats.ArR cluMats.ArF).det
        = sysAOf Nat.one_pos cluMats.ArR cluMats.ArF 0 0 := Matrix.det_fin_one _
    rw [h, cluMats_ArF, cluMats_ArR]
    simp [sysAOf]
  · have h2 : (cluMats.Ir - cluMats.ArF).det ≠ 0 := by
      have hd : (cluMats.Ir - cluMats.ArF).det = (cluMats.Ir - cluMats.ArF) 0 0 :=
        Matrix.det_fin_one _
      rw [hd, cluMats_ArF]
      norm_num [Matrix.sub_apply, Matrix.one_apply, show cluMats.Ir = 1 from rfl]
    have h3 : (cluMats.Ir - cluMats.ArR).det ≠ 0 := by
      have hd : (cluMats.Ir - cluMats.ArR).det = (cluMats.Ir - cluMats.ArR) 0 0 :=
        Matrix.det_fin_one _
      rw [hd, cluMats_ArR]
      norm_num [Matrix.sub_apply, Matrix.one_apply, show cluMats.Ir = 1 from rfl]
    unfold build_cpe_matrices npinv
    dsimp only
    rw [if_neg h2]
    simp only [Except.bind]
    rw [if_neg h3]
    simp only [Except.bind]
    exact fun hc => Except.noConfusion hc

/-- C8 (amended): the extension-matrix builders fail with
IllConditionedWeights exactly when one of their np.linalg.inv calls
meets a singular matrix: build_cpe_matrices when I - ArF or I - ArR is
singular (the scipy LU solve of the r² system raises nothing, even on a
singular sysA), build_epe_matrices when K - ArR, I - AwF², I - AhF² or
AbarF is singular.  Every such failure surfaces from the builder
itself; the carry-propagation stages are total functions that perform
no inversion, so the failure can never arise during propagation. -/
theorem ext_builders_fail_iff_inv {b r : ℕ} (hr : 0 < r) (wgt : ℕ → ℚ)
    (mats : Alg5M b r) :
    (build_cpe_matrices hr wgt mats = Except.error FilterError.IllConditionedWeights
      ↔ (mats.Ir - mats.ArF).det = 0 ∨ (mats.Ir - mats.ArR).det = 0) ∧
    (build_epe_matrices wgt mats = Except.error FilterError.IllConditionedWeights
      ↔ (mats.K - mats.ArR).det = 0 ∨ (mats.Ir - mats.AwF * mats.AwF).det = 0
        ∨ (mats.Ir - mats.AhF * mats.AhF).det = 0 ∨ mats.AbarF.det = 0) := by
  constructor
  · unfold build_cpe_matrices npinv
    dsimp only
    by_cases h2 : (mats.Ir - mats.ArF).det = 0
    · rw [if_pos h2]
      simp only [Except.bind]
      exact iff_of_true trivial (Or.inl h2)
    rw [if_neg h2]
    simp only [Except.bind]
    by_cases h3 : (mats.Ir - mats.ArR).det = 0
    · rw [if_pos h3]
      simp only [Except.bind]
      exact iff_of_true trivial (Or.inr h3)
    rw [if_neg h3]
    simp only [Except.bind]
    exact iff_of_false (fun hc => Except.noConfusion hc) (by tauto)
  · unfold build_epe_matrices npinv
    dsimp only
    by_cases h1 : (mats.K - mats.ArR).det = 0
    · rw [if_pos h1]
      simp only [Except.bind]
      exact iff_of_true trivial (Or.inl h1)
    rw [if_neg h1]
    simp only [Except.bind]
    by_cases h2 : (mats.Ir - mats.AwF * mats.AwF).det = 0
    · rw [if_pos h2]
      simp only [Except.bind]
      exact iff_of_true trivial (Or.inr (Or.inl h2))
    rw [if_neg h2]
    simp only [Except.bind]
    by_cases h3 : (mats.Ir - mats.AhF * mats.AhF).det = 0
    · rw [if_pos h3]
      simp only [Except.bind]
      exact iff_of_true trivial (Or.inr (Or.inr (Or.inl h3)))
    rw [if_neg h3]
    simp only [Except.bind]
    by_cases h4 : mats.AbarF.det = 0
    · rw [if_pos h4]
      simp only [Except.bind]
      exact iff_of_true trivial (Or.inr (Or.inr (Or.inr h4)))
    rw [if_neg h4]
    simp only [Except.bind]
    exact iff_of_false (fun hc => Except.noConfusion hc) (by tauto)

/-- C8 witness: the failure characterization instantiated at the
concrete zero-weight pack with r = 1, b = 2. -/
theorem ext_builders_fail_iff_inv_witness :
    (build_cpe_matrices (by decide) (fun _ => 0) pewMats
        = Except.error FilterError.IllConditionedWeights
      ↔ (pewMats.Ir - pewMats.ArF).det = 0
        ∨ (pewMats.Ir - pewMats.ArR).det = 0) ∧
    (build_epe_matrices (fun _ => 0) pewMats
        = Except.error FilterError.IllConditionedWeights
      ↔ (pewMats.K - pewMats.ArR).det = 0
        ∨ (pewMats.Ir - pewMats.AwF * pewMats.AwF).det = 0
        ∨ (pewMats.Ir - pewMats.AhF * pewMats.AhF).det = 0
        ∨ pewMats.AbarF.det = 0) :=
  ext_builders_fail_iff_inv (by decide) (fun _ => 0) pewMats

section CpeChar

variable {r b : ℕ}

/-- The row-filtered block R(F(B)) from which the cpe stage 1 takes its
Pt and Et boundary tiles. -/
def cpeB2 (wgt : ℕ → ℚ) (mats : Alg5M b r) (B : Matrix (Fin b) (Fin b) ℚ) :
    Matrix (Fin b) (Fin b) ℚ :=
  R (F mats.Zrb B wgt r) mats.Zrb wgt r

/-- Helper: the P writes of one cpe stage 1 iteration. -/
theorem cpeBody_P (M N : ℕ) (wgt : ℕ → ℚ) (hrb : r ≤ b) (hb : 0 < b)
    (mats : Alg5M b r) (s : Alg5State r b) (m n i j : ℕ) (hm : m < M) :
    (cpeStage1Body M N wgt hrb hb mats s (m, n)).P i j
      = if i = m ∧ j = n then stage1Pval wgt hrb mats (s.blocks m n)
        else if m = 0 ∧ i = M ∧ j = n then tileR r (H (s.blocks m n) 1 hb)
        else s.P i j := by
  unfold cpeStage1Body
  dsimp only
  by_cases h0 : m = 0 <;> by_cases h1 : m = M - 1 <;>
    by_cases h2 : n = 0 <;> by_cases h3 : n = N - 1 <;>
    simp only [h0, h1, h2, h3, if_pos, if_neg, if_true, if_false, ite_true, ite_false,
      reduceIte, upd2, pyIdx_neg_one, stage1Pval, eq_self_iff_true, true_and, and_true] <;>
    split_ifs <;>
      first
        | rfl
        | omega
        | tauto
        | (simp_all [upd2]; all_goals (split_ifs <;> tauto))


/-- Helper: the cpe stage 1 body never writes the block grid. -/
theorem cpeBody_blocks (M N : ℕ) (wgt : ℕ → ℚ) (hrb : r ≤ b) (hb : 0 < b)
    (mats : Alg5M b r) (s : Alg5State r b) (mn : ℕ × ℕ) :
    (cpeStage1Body M N wgt hrb hb mats s mn).blocks = s.blocks := by
  obtain ⟨m, n⟩ := mn
  unfold cpeStage1Body
  dsimp only
  by_cases h0 : m = 0 <;> by_cases h1 : m = M - 1 <;>
    by_cases h2 : n = 0 <;> by_cases h3 : n = N - 1 <;>
    simp only [h0, h1, h2, h3, if_pos, if_neg, if_true, if_false, ite_true, ite_false,
      reduceIte, eq_self_iff_true, true_and, and_true] <;>
    first | rfl | (split_ifs <;> rfl)

/-- Helper: the E writes of one cpe stage 1 iteration; the boundary
write fires only when m = M-1 is not the m = 0 branch (elif). -/
theorem cpeBody_E (M N : ℕ) (wgt : ℕ → ℚ) (hrb : r ≤ b) (hb : 0 < b)
    (mats : Alg5M b r) (s : Alg5State r b) (m n i j : ℕ) (hm : m < M) :
    (cpeStage1Body M N wgt hrb hb mats s (m, n)).E i j
      = if i = m ∧ j = n then stage1Eval wgt hrb mats (s.blocks m n)
        else if ¬m = 0 ∧ m = M - 1 ∧ i = M ∧ j = n then tileR r (T (s.blocks m n) 1 hb)
        else s.E i j := by
  unfold cpeStage1Body
  dsimp only
  by_cases h0 : m = 0 <;> by_cases h1 : m = M - 1 <;>
    by_cases h2 : n = 0 <;> by_cases h3 : n = N - 1 <;>
    simp only [h0, h1, h2, h3, if_pos, if_neg, if_true, if_false, ite_true, ite_false,
      reduceIte, upd2, pyIdx_neg_one, stage1Eval, eq_self_iff_true, true_and, and_true,
      not_true, not_false_iff, false_and, and_false] <;>
    split_ifs <;>
      first
        | rfl
        | omega
        | tauto
        | (simp_all [upd2]; all_goals (split_ifs <;> tauto))

/-- Helper: the Pt writes of one cpe stage 1 iteration; the boundary
tile is taken from the row-filtered block R(F(B)). -/
theorem cpeBody_Pt (M N : ℕ) (wgt : ℕ → ℚ) (hrb : r ≤ b) (hb : 0 < b)
    (mats : Alg5M b r) (s : Alg5State r b) (m n i j : ℕ) (hn : n < N) :
    (cpeStage1Body M N wgt hrb hb mats s (m, n)).Pt i j
      = if i = m ∧ j = n then stage1Ptval wgt hrb mats (s.blocks m n)
        else if n = 0 ∧ i = m ∧ j = N then tileC r (HT (cpeB2 wgt mats (s.blocks m n)) 1 hb)
        else s.Pt i j := by
  unfold cpeStage1Body
  dsimp only
  by_cases h0 : m = 0 <;> by_cases h1 : m = M - 1 <;>
    by_cases h2 : n = 0 <;> by_cases h3 : n = N - 1 <;>
    simp only [h0, h1, h2, h3, if_pos, if_neg, if_true, if_false, ite_true, ite_false,
      reduceIte, upd2, pyIdx_neg_one, stage1Ptval, cpeB2, eq_self_iff_true, true_and,
      and_true, not_true, not_false_iff, false_and, and_false] <;>
    split_ifs <;>
      first
        | rfl
        | omega
        | tauto
        | (simp_all [upd2]; all_goals (split_ifs <;> tauto))

/-- Helper: the Et writes of one cpe stage 1 iteration; the boundary
write fires only when n = N-1 is not the n = 0 branch (elif). -/
theorem cpeBody_Et (M N : ℕ) (wgt : ℕ → ℚ) (hrb : r ≤ b) (hb : 0 < b)
    (mats : Alg5M b r) (s : Alg5State r b) (m n i j : ℕ) (hn : n < N) :
    (cpeStage1Body M N wgt hrb hb mats s (m, n)).Et i j
      = if i = m ∧ j = n then stage1Etval wgt hrb mats (s.blocks m n)
        else if ¬n = 0 ∧ n = N - 1 ∧ i = m ∧ j = N then
          tileC r (TT (cpeB2 wgt mats (s.blocks m n)) 1 hb)
        else s.Et i j := by
  unfold cpeStage1Body
  dsimp only
  by_cases h0 : m = 0 <;> by_cases h1 : m = M - 1 <;>
    by_cases h2 : n = 0 <;> by_cases h3 : n = N - 1 <;>
    simp only [h0, h1, h2, h3, if_pos, if_neg, if_true, if_false, ite_true, ite_false,
      reduceIte, upd2, pyIdx_neg_one, stage1Etval, cpeB2, eq_self_iff_true, true_and,
      and_true, not_true, not_false_iff, false_and, and_false] <;>
    split_ifs <;>
      first
        | rfl
        | omega
        | tauto
        | (simp_all [upd2]; all_goals (split_ifs <;> tauto))


set_option maxHeartbeats 1000000 in
/-- Helper: P slots after cpe stage 1 over any in-range index list. -/
theorem cpeFold_P (M N : ℕ) (wgt : ℕ → ℚ) (hrb : r ≤ b) (hb : 0 < b)
    (mats : Alg5M b r) :
    ∀ (l : List (ℕ × ℕ)) (s : Alg5State r b),
      (∀ p ∈ l, p.1 < M ∧ p.2 < N) → ∀ i j,
      (l.foldl (cpeStage1Body M N wgt hrb hb mats) s).P i j
        = if i = M ∧ (0, j) ∈ l then tileR r (H (s.blocks 0 j) 1 hb)
          else if (i, j) ∈ l then stage1Pval wgt hrb mats (s.blocks i j)
          else s.P i j := by
  intro l
  induction l with
  | nil =>
    intro s hl i j
    simp
  | cons p rest ih =>
    obtain ⟨m, n⟩ := p
    intro s hl i j
    have hmn := hl (m, n) (List.mem_cons_self _ _)
    have hm := hmn.1
    have hn := hmn.2
    have hnr : ∀ j0, (M, j0) ∈ rest → False := by
      intro j0 hc
      have := (hl (M, j0) (List.mem_cons_of_mem _ hc)).1
      omega
    rw [List.foldl_cons, ih _ (fun q hq => hl q (List.mem_cons_of_mem _ hq)) i j,
      cpeBody_blocks, cpeBody_P M N wgt hrb hb mats s m n i j hm]
    simp only [List.mem_cons, Prod.mk.injEq]
    split_ifs <;> first | rfl | omega | tauto | simp_all


set_option maxHeartbeats 1000000 in
/-- Helper: E slots after cpe stage 1 over any in-range index list. -/
theorem cpeFold_E (M N : ℕ) (wgt : ℕ → ℚ) (hrb : r ≤ b) (hb : 0 < b)
    (mats : Alg5M b r) :
    ∀ (l : List (ℕ × ℕ)) (s : Alg5State r b),
      (∀ p ∈ l, p.1 < M ∧ p.2 < N) → ∀ i j,
      (l.foldl (cpeStage1Body M N wgt hrb hb mats) s).E i j
        = if i = M ∧ ¬(M - 1 = 0) ∧ (M - 1, j) ∈ l then
            tileR r (T (s.blocks (M - 1) j) 1 hb)
          else if (i, j) ∈ l then stage1Eval wgt hrb mats (s.blocks i j)
          else s.E i j := by
  intro l
  induction l with
  | nil =>
    intro s hl i j
    simp
  | cons p rest ih =>
    obtain ⟨m, n⟩ := p
    intro s hl i j
    have hmn := hl (m, n) (List.mem_cons_self _ _)
    have hm := hmn.1
    have hn := hmn.2
    have hnr : ∀ j0, (M, j0) ∈ rest → False := by
      intro j0 hc
      have := (hl (M, j0) (List.mem_cons_of_mem _ hc)).1
      omega
    rw [List.foldl_cons, ih _ (fun q hq => hl q (List.mem_cons_of_mem _ hq)) i j,
      cpeBody_blocks, cpeBody_E M N wgt hrb hb mats s m n i j hm]
    simp only [List.mem_cons, Prod.mk.injEq]
    split_ifs <;> first | rfl | omega | tauto | simp_all

set_option maxHeartbeats 1000000 in
/-- Helper: Pt slots after cpe stage 1 over any in-range index list. -/
theorem cpeFold_Pt (M N : ℕ) (wgt : ℕ → ℚ) (hrb : r ≤ b) (hb : 0 < b)
    (mats : Alg5M b r) :
    ∀ (l : List (ℕ × ℕ)) (s : Alg5State r b),
      (∀ p ∈ l, p.1 < M ∧ p.2 < N) → ∀ i j,
      (l.foldl (cpeStage1Body M N wgt hrb hb mats) s).Pt i j
        = if j = N ∧ (i, 0) ∈ l then tileC r (HT (cpeB2 wgt mats (s.blocks i 0)) 1 hb)
          else if (i, j) ∈ l then stage1Ptval wgt hrb mats (s.blocks i j)
          else s.Pt i j := by
  intro l
  induction l with
  | nil =>
    intro s hl i j
    simp
  | cons p rest ih =>
    obtain ⟨m, n⟩ := p
    intro s hl i j
    have hmn := hl (m, n) (List.mem_cons_self _ _)
    have hm := hmn.1
    have hn := hmn.2
    have hnr : ∀ i0, (i0, N) ∈ rest → False := by
      intro i0 hc
      have := (hl (i0, N) (List.mem_cons_of_mem _ hc)).2
      omega
    rw [List.foldl_cons, ih _ (fun q hq => hl q (List.mem_cons_of_mem _ hq)) i j,
      cpeBody_blocks, cpeBody_Pt M N wgt hrb hb mats s m n i j hn]
    simp only [List.mem_cons, Prod.mk.injEq]
    split_ifs <;> first | rfl | omega | tauto | simp_all

set_option maxHeartbeats 1000000 in
/-- Helper: Et slots after cpe stage 1 over any in-range index list. -/
theorem cpeFold_Et (M N : ℕ) (wgt : ℕ → ℚ) (hrb : r ≤ b) (hb : 0 < b)
    (mats : Alg5M b r) :
    ∀ (l : List (ℕ × ℕ)) (s : Alg5State r b),
      (∀ p ∈ l, p.1 < M ∧ p.2 < N) → ∀ i j,
      (l.foldl (cpeStage1Body M N wgt hrb hb mats) s).Et i j
        = if j = N ∧ ¬(N - 1 = 0) ∧ (i, N - 1) ∈ l then
            tileC r (TT (cpeB2 wgt mats (s.blocks i (N - 1))) 1 hb)
          else if (i, j) ∈ l then stage1Etval wgt hrb mats (s.blocks i j)
          else s.Et i j := by
  intro l
  induction l with
  | nil =>
    intro s hl i j
    simp
  | cons p rest ih =>
    obtain ⟨m, n⟩ := p
    intro s hl i j
    have hmn := hl (m, n) (List.mem_cons_self _ _)
    have hm := hmn.1
    have hn := hmn.2
    have hnr : ∀ i0, (i0, N) ∈ rest → False := by
      intro i0 hc
      have := (hl (i0, N) (List.mem_cons_of_mem _ hc)).2
      omega
    rw [List.foldl_cons, ih _ (fun q hq => hl q (List.mem_cons_of_mem _ hq)) i j,
      cpeBody_blocks, cpeBody_Et M N wgt hrb hb mats s m n i j hn]
    simp only [List.mem_cons, Prod.mk.injEq]
    split_ifs <;> first | rfl | omega | tauto | simp_all | (exfalso; omega) | (exfalso; tauto)


/-- C4 amended: under the CPE policy (for every grid with M, N at least
1), stage 1 sets for every n the slot P[-1][n] (storage row M) to the
r-fold tile of the first row of the original block at m = 0; it sets
E[M][n] to the r-fold tile of the last row of the original block at
m = M-1 only when M is at least 2 (the branch is an elif of the m = 0
test, so for M = 1 the slot keeps its previous value); and it sets
Pt[m][-1] (storage column N) from the first column and, only when N is
at least 2, Et[m][N] from the last column of the row-filtered block
R(F(B)), not of the original block. -/
theorem cpe_stage1_boundaries (M N : ℕ) (wgt : ℕ → ℚ) (hrb : r ≤ b) (hb : 0 < b)
    (mats : Alg5M b r) (s : Alg5State r b) (hM : 0 < M) (hN : 0 < N) :
    (∀ n < N, (alg5_cpe_stage1 M N wgt hrb hb mats s).P M n
        = tileR r (H (s.blocks 0 n) 1 hb)) ∧
    (∀ n < N, 2 ≤ M → (alg5_cpe_stage1 M N wgt hrb hb mats s).E M n
        = tileR r (T (s.blocks (M - 1) n) 1 hb)) ∧
    (M = 1 → ∀ n, (alg5_cpe_stage1 M N wgt hrb hb mats s).E M n = s.E M n) ∧
    (∀ m < M, (alg5_cpe_stage1 M N wgt hrb hb mats s).Pt m N
        = tileC r (HT (cpeB2 wgt mats (s.blocks m 0)) 1 hb)) ∧
    (∀ m < M, 2 ≤ N → (alg5_cpe_stage1 M N wgt hrb hb mats s).Et m N
        = tileC r (TT (cpeB2 wgt mats (s.blocks m (N - 1))) 1 hb)) ∧
    (N = 1 → ∀ m, (alg5_cpe_stage1 M N wgt hrb hb mats s).Et m N = s.Et m N) := by
  have hl : ∀ p ∈ canonOrder M N, p.1 < M ∧ p.2 < N :=
    fun p hp => (mem_canonOrder M N p).mp hp
  unfold alg5_cpe_stage1
  refine ⟨?_, ?_, ?_, ?_, ?_, ?_⟩
  · intro n hn
    rw [cpeFold_P M N wgt hrb hb mats _ s hl M n,
      if_pos ⟨rfl, (mem_canonOrder M N (0, n)).mpr ⟨hM, hn⟩⟩]
  · intro n hn hM2
    rw [cpeFold_E M N wgt hrb hb mats _ s hl M n,
      if_pos ⟨rfl, by omega, (mem_canonOrder M N (M - 1, n)).mpr ⟨by omega, hn⟩⟩]
  · intro hM1 n
    rw [cpeFold_E M N wgt hrb hb mats _ s hl M n, if_neg, if_neg]
    · intro hc
      have := (mem_canonOrder M N (M, n)).mp hc
      omega
    · intro hc
      omega
  · intro m hm
    rw [cpeFold_Pt M N wgt hrb hb mats _ s hl m N,
      if_pos ⟨rfl, (mem_canonOrder M N (m, 0)).mpr ⟨hm, hN⟩⟩]
  · intro m hm hN2
    rw [cpeFold_Et M N wgt hrb hb mats _ s hl m N,
      if_pos ⟨rfl, by omega, (mem_canonOrder M N (m, N - 1)).mpr ⟨hm, by omega⟩⟩]
  · intro hN1 m
    rw [cpeFold_Et M N wgt hrb hb mats _ s hl m N, if_neg, if_neg]
    · intro hc
      have := (mem_canonOrder M N (m, N)).mp hc
      omega
    · intro hc
      omega

/-- C4 counterexample: on a single-block grid (M = N = 1) the elif
branch of alg5_cpe_stage1 never fires, so the boundary slot E[M][n]
keeps its zero initialization instead of the r-fold tile of the last
row of the original block that the claim prescribes. -/
theorem cpe_stage1_single_row_E_missing :
    (alg5_cpe_stage1 1 1 (fun _ => 0) (by decide) (by decide) pewMats pewState).E 1 0
      ≠ tileR 1 (T (pewState.blocks 0 0) 1 (by decide)) := by
  decide

/-- C4 amended witness: the boundary characterization at the concrete
single-block grid, where both elif cases are skipped. -/
theorem cpe_stage1_boundaries_witness :
    (∀ n < 1, (alg5_cpe_stage1 1 1 (fun _ => 0) (by decide) (by decide) pewMats
        pewState).P 1 n = tileR 1 (H (pewState.blocks 0 n) 1 (by decide))) ∧
    (∀ n < 1, 2 ≤ 1 → (alg5_cpe_stage1 1 1 (fun _ => 0) (by decide) (by decide) pewMats
        pewState).E 1 n = tileR 1 (T (pewState.blocks (1 - 1) n) 1 (by decide))) ∧
    (1 = 1 → ∀ n, (alg5_cpe_stage1 1 1 (fun _ => 0) (by decide) (by decide) pewMats
        pewState).E 1 n = pewState.E 1 n) ∧
    (∀ m < 1, (alg5_cpe_stage1 1 1 (fun _ => 0) (by decide) (by decide) pewMats
        pewState).Pt m 1 = tileC 1 (HT (cpeB2 (fun _ => 0) pewMats
          (pewState.blocks m 0)) 1 (by decide))) ∧
    (∀ m < 1, 2 ≤ 1 → (alg5_cpe_stage1 1 1 (fun _ => 0) (by decide) (by decide) pewMats
        pewState).Et m 1 = tileC 1 (TT (cpeB2 (fun _ => 0) pewMats
          (pewState.blocks m (1 - 1))) 1 (by decide))) ∧
    (1 = 1 → ∀ m, (alg5_cpe_stage1 1 1 (fun _ => 0) (by decide) (by decide) pewMats
        pewState).Et m 1 = pewState.Et m 1) :=
  cpe_stage1_boundaries 1 1 (fun _ => 0) (by decide) (by decide) pewMats pewState
    (by decide) (by decide)

end CpeChar

end GpuFilter
